import Mathlib

/-!
Verification of the brand-scraper core (normalize.py, scraper.py) against its
natural-language specification.

Python strings are modelled as lists of Unicode code points (`List Nat`).
The modelled character repertoire is ASCII plus the Latin-1 / Latin Extended
range U+00C0–U+024F that the source's regexes name explicitly, plus the
compatibility characters listed in the `nfkcCp` table; characters outside this
repertoire are treated as caseless symbols, which matches Python on the
repertoire and is documented where it matters.
-/

namespace Scraper

/-- A Python `str`, as its sequence of Unicode code points. -/
abbrev Str := List Nat

/-- Code points of a Lean string literal (used to write concrete inputs). -/
def cps (s : String) : Str := s.data.map Char.toNat

/-! ## Character classes

Model of the character predicates the source relies on (Python `re` classes
and `str` methods), on the repertoire described above. -/

/-- Python `str.isdigit` restricted to the modelled repertoire: ASCII digits.
(Unicode digit variants that occur in the sources, e.g. superscripts, are
handled by the `nfkcCp` compatibility table before any digit test runs.) -/
def isDigitCp (c : Nat) : Bool := 48 ≤ c && c ≤ 57

def isAsciiUpperCp (c : Nat) : Bool := 65 ≤ c && c ≤ 90

def isAsciiLowerCp (c : Nat) : Bool := 97 ≤ c && c ≤ 122

/-- Letters of the Latin-1 Supplement / Latin Extended range U+00C0–U+024F
(the range named by the source's regexes), excluding the two non-letters in
that range: × (U+00D7) and ÷ (U+00F7). -/
def isLatinExtLetterCp (c : Nat) : Bool :=
  192 ≤ c && c ≤ 591 && c ≠ 215 && c ≠ 247

def isLetterCp (c : Nat) : Bool :=
  isAsciiUpperCp c || isAsciiLowerCp c || isLatinExtLetterCp c

/-- Python regex `\w` (re.UNICODE): alphanumeric or underscore.
Note: `\w` does include the underscore (95); this matters for
`strip_emoji_and_symbols`. -/
def isWordCp (c : Nat) : Bool := isLetterCp c || isDigitCp c || c == 95

/-- Python `\s` / `str.split()` whitespace: space, tab, LF, VT, FF, CR.
(U+00A0 is mapped to a plain space by the `nfkcCp` table first.) -/
def isSpaceCp (c : Nat) : Bool :=
  c == 32 || c == 9 || c == 10 || c == 11 || c == 12 || c == 13

/-- The character class of `LETTER_GROUP_PATTERN` and of the trailing-digit
regex: ASCII letters and the whole range U+00C0–U+024F. As written in the
source, the *full* range is included, so × and ÷ are matched too. -/
def isGroupLetterCp (c : Nat) : Bool :=
  isAsciiUpperCp c || isAsciiLowerCp c || (192 ≤ c && c ≤ 591)

/-- Python `str.lower` (simple lowercase mapping) on the modelled repertoire:
ASCII letters and the Latin-1 uppercase block U+00C0–U+00DE (minus ×) map down
by 32; everything else in the repertoire is returned unchanged. -/
def lowerCp (c : Nat) : Nat :=
  if 65 ≤ c ∧ c ≤ 90 then c + 32
  else if 192 ≤ c ∧ c ≤ 222 ∧ c ≠ 215 then c + 32
  else c

/-- Unicode titlecase mapping used by Python `str.title` on the modelled
repertoire. ß (U+00DF) titlecases to the two-character string "Ss"; ASCII and
Latin-1 lowercase letters map up by 32; everything else is unchanged. -/
def titleMapCp (c : Nat) : List Nat :=
  if 97 ≤ c ∧ c ≤ 122 then [c - 32]
  else if c = 223 then [83, 115]
  else if 224 ≤ c ∧ c ≤ 254 ∧ c ≠ 247 then [c - 32]
  else [c]

/-- Cased characters (they flip `str.title`'s word-boundary state): letters of
the modelled repertoire. Digits, underscore, punctuation are uncased. -/
def isCasedCp (c : Nat) : Bool := isLetterCp c

/-- Model of `unicodedata.normalize("NFKC", ·)`, per code point, on the modelled
repertoire: the compatibility decompositions of the characters that occur in
the development (™, Ĳ/ĳ, NBSP, superscripts, fi/fl ligatures); canonical
(NFC-composed) characters such as the U+00C0–U+024F letters are NFKC-fixed
and are returned unchanged, as is the rest of the repertoire. -/
def nfkcCp (c : Nat) : List Nat :=
  if c = 8482 then [84, 77]
  else if c = 306 then [73, 74]
  else if c = 307 then [105, 106]
  else if c = 160 then [32]
  else if c = 178 then [50]
  else if c = 179 then [51]
  else if c = 185 then [49]
  else if c = 64257 then [102, 105]
  else if c = 64258 then [102, 108]
  else [c]

/-- NFKC of a whole string. -/
def nfkcStr (t : Str) : Str := t.flatMap nfkcCp

/-! ## String helpers (Python `str` methods) -/

/-- Python `str.strip()` (no argument): drop leading and trailing whitespace. -/
def pyStrip (t : Str) : Str :=
  ((t.dropWhile (fun c => isSpaceCp c)).reverse.dropWhile
    (fun c => isSpaceCp c)).reverse

/-- Python `str.split()` (no argument): split on whitespace runs, dropping
empty pieces. `acc` carries the current word, reversed. -/
def splitWsAux : Str → Str → List Str
  | [], acc => if acc = [] then [] else [acc.reverse]
  | c :: rest, acc =>
    if isSpaceCp c then
      if acc = [] then splitWsAux rest [] else acc.reverse :: splitWsAux rest []
    else splitWsAux rest (c :: acc)

def splitWs (t : Str) : List Str := splitWsAux t []

/-- Python `str.title`: titlecase each cased character that follows an uncased
character, lowercase every other cased character. `prevCased` is the state
Python tracks (whether the previous input character was cased). -/
def titleGo : Str → Bool → Str
  | [], _ => []
  | c :: rest, prevCased =>
    (if prevCased then [lowerCp c] else titleMapCp c) ++ titleGo rest (isCasedCp c)

def titleStr (t : Str) : Str := titleGo t false

/-- Python `str.lower` on a whole string. -/
def lowerStr (t : Str) : Str := t.map lowerCp

/-- Python `p in t` on strings: `p` occurs as a contiguous substring of `t`. -/
def isSubstring : Str → Str → Bool
  | p, [] => decide (p = [])
  | p, c :: rest => p.isPrefixOf (c :: rest) || isSubstring p rest

/-! ## normalize.py -/

/-- Source `NOISE_WORDS` (normalize.py): single words that are categories, product
types or nav labels, not brand names. The source's frozenset, in source
order; "products" appears twice in the source literal, which a set collapses
and list membership tolerates. -/
def NOISE_WORDS : List Str :=
  [cps "all", cps "brands", cps "designers", cps "shop", cps "view",
   cps "see", cps "more", cps "new", cps "sale",
   cps "women", cps "men", cps "kids", cps "accessories", cps "shoes",
   cps "bags", cps "beauty", cps "home",
   cps "collection", cps "bestseller", cps "trending", cps "clear",
   cps "filter", cps "sort",
   cps "products", cps "items", cps "clothing", cps "tops", cps "bottoms",
   cps "dresses", cps "outerwear",
   cps "swimwear", cps "loungewear", cps "intimates", cps "heels",
   cps "boots", cps "sandals", cps "sneakers",
   cps "loafers", cps "socks", cps "jewelry", cps "belts", cps "scarves",
   cps "sunglasses", cps "rompers",
   cps "jumpsuits", cps "arrivals", cps "chance", cps "apply", cps "products",
   cps "ana", cps "sayfa"]

/-- Source `NOISE_PHRASES` (normalize.py): substrings (matched case-insensitively)
that mark nav/category labels, in source order. -/
def NOISE_PHRASES : List Str :=
  [cps "ana sayfa",
   cps "new arrivals", cps "sale by brands", cps "shop by brand",
   cps "last chance",
   cps "sale items", cps "sale clothing", cps "sale shoes",
   cps "sale sweaters", cps "sale dress",
   cps "shop the look", cps "denim jean sale", cps "leather sale",
   cps "swim sale", cps "coat sale",
   cps "dress sale", cps "shoe sale", cps "winter dress collection",
   cps "summer dress sale",
   cps "summer shoe sale", cps "the blazer edit", cps "the boot shop",
   cps "the scarf edit",
   cps "the valentine", cps "conditions apply", cps "hot for summer",
   cps "off the beaten track",
   cps "printed artworks", cps "solid striped", cps "sale fw", cps " front",
   cps " edit",
   cps "date shoes", cps "products", cps "sale fw ", cps "on sale",
   cps " shop"]

/-- Source `LETTER_GROUP_PATTERN.match(t)` (normalize.py):
one to three characters of the class, a hyphen, then one to three more,
anchored on both sides. The class contains no hyphen, so the first group is
exactly the maximal leading run of class characters and the regex match is
equivalent to this deterministic test. -/
def letterGroupMatch (t : Str) : Bool :=
  match t.dropWhile (fun c => isGroupLetterCp c) with
  | 45 :: g2 =>
    let g1 := t.takeWhile (fun c => isGroupLetterCp c)
    decide (1 ≤ g1.length) && decide (g1.length ≤ 3) &&
    decide (1 ≤ g2.length) && decide (g2.length ≤ 3) &&
    g2.all (fun c => isGroupLetterCp c)
  | _ => false

/-- The regex class `[\w\s\-']` (the complement of what
`strip_emoji_and_symbols` deletes, and the class `_slug_from_href` requires):
word characters — including the underscore — whitespace, hyphen, apostrophe. -/
def allowedCp (c : Nat) : Bool :=
  isWordCp c || isSpaceCp c || c == 45 || c == 39

/-- Source `strip_emoji_and_symbols` (normalize.py): NFKC-normalize, then delete
every character outside `[\w\s\-']`. -/
def strip_emoji_and_symbols (text : Str) : Str :=
  (nfkcStr text).filter allowedCp

/-- Python `" ".join(ws)`: words joined by single spaces. -/
def joinSp : List Str → Str
  | [] => []
  | [u] => u
  | u :: v :: ws => u ++ 32 :: joinSp (v :: ws)

/-- Source `normalize_caps` (normalize.py): `" ".join(text.split())` then
`str.title`. -/
def normalize_caps (text : Str) : Str :=
  titleStr (joinSp (splitWs text))

/-- Source `is_noise_phrase` (normalize.py): the noise decision on a cleaned string.
`t = text.strip()`; empty or one-character strings are noise; then an exact
(lowercased) `NOISE_WORDS` match, a `NOISE_PHRASES` substring match, the
letter-group pattern on `t`, and the mostly-digits test
`sum(c.isdigit() for c in tl) >= len(t) // 2` are each noise. -/
def is_noise_phrase (text : Str) : Bool :=
  let t := pyStrip text
  if t.length < 2 then true
  else
    let tl := lowerStr t
    if NOISE_WORDS.contains tl then true
    else if NOISE_PHRASES.any (fun p => isSubstring p tl) then true
    else if letterGroupMatch t then true
    else if t.length / 2 ≤ tl.countP (fun c => isDigitCp c) then true
    else false

/-- Source `normalize_brand_name` (normalize.py): strip emoji/symbols, normalize
caps, strip; empty if the result is shorter than 2 characters or is noise. -/
def normalize_brand_name (raw : Str) : Str :=
  let s₁ := strip_emoji_and_symbols raw
  let s₂ := normalize_caps s₁
  let s := pyStrip s₂
  if s.length < 2 then []
  else if is_noise_phrase s then []
  else s

/-- Loop body of `dedupe_brand_names` (normalize.py): normalize each name,
keep it if non-empty and not seen before (exact match on the normalized
form), in traversal order. -/
def dedupeGo : List Str → List Str → List Str
  | [], _ => []
  | n :: rest, seen =>
    let m := normalize_brand_name n
    if m ≠ [] ∧ ¬ seen.contains m then m :: dedupeGo rest (m :: seen)
    else dedupeGo rest seen

/-- Source `dedupe_brand_names` (normalize.py). -/
def dedupe_brand_names (names : List Str) : List Str := dedupeGo names []

/-! ## schemas.py -/

/-- Source `BrandRecord` (schemas.py). `make_timestamp` is I/O, so the timestamp is
threaded as data. -/
structure BrandRecord where
  brand : Str
  source : Str
  scrape_timestamp : Str
deriving DecidableEq, Repr

/-! ## scraper.py — URL and text helpers -/

/-- Decimal rendering of a Nat as code points (for messages such as
HTTP 403); the extra fuel argument makes the recursion structural. -/
def natToStrAux : Nat → Nat → Str
  | 0, _ => []
  | fuel + 1, n => if n < 10 then [48 + n] else natToStrAux fuel (n / 10) ++ [48 + n % 10]

def natToStr (n : Nat) : Str := natToStrAux (n + 1) n

/-- The prefix of `t` before the first occurrence of `c` (all of `t` if `c`
does not occur), e.g. Python `t.split(chr(c))[0]`. -/
def takeBeforeCp (t : Str) (c : Nat) : Str := t.takeWhile (fun d => d ≠ c)

/-- Characters allowed in a URL scheme after the first (letters, digits,
`+`, `-`, `.`), per `urllib.parse`. -/
def isSchemeCp (c : Nat) : Bool :=
  isAsciiUpperCp c || isAsciiLowerCp c || isDigitCp c || c == 43 || c == 45 || c == 46

/-- Drop a leading `scheme:` from a URL if the part before the first `:` is a
non-empty run of scheme characters starting with a letter (urllib). -/
def dropScheme (u : Str) : Str :=
  let pre := takeBeforeCp u 58
  let headIsAlpha : Bool :=
    match pre.head? with
    | some c => isAsciiUpperCp c || isAsciiLowerCp c
    | none => false
  if u.contains 58 && decide (pre ≠ []) && headIsAlpha && pre.all isSchemeCp then
    u.drop (pre.length + 1)
  else u

/-- Drop a leading `//netloc` (urllib: the netloc extends to the next `/`;
query and fragment have been removed by the caller). -/
def dropNetloc (u : Str) : Str :=
  match u with
  | 47 :: 47 :: rest => rest.dropWhile (fun c => c ≠ 47)
  | _ => u

/-- urllib's `_splitparams`: remove a `;params` suffix from the last path
segment. -/
def splitParams (p : Str) : Str :=
  let lastSeg := (p.reverse.takeWhile (fun c => c ≠ 47)).reverse
  p.take (p.length - lastSeg.length) ++ takeBeforeCp lastSeg 59

/-- Model of `urlparse(href).path` on the modelled repertoire: strip the fragment,
query, scheme, netloc and last-segment params. (Multi-byte escapes and other
urllib corner cases are outside the claims exercised here.) -/
def urlparsePath (href : Str) : Str :=
  splitParams (dropNetloc (dropScheme (takeBeforeCp (takeBeforeCp href 35) 63)))

/-- Value of an ASCII hex digit. -/
def hexVal (c : Nat) : Option Nat :=
  if 48 ≤ c ∧ c ≤ 57 then some (c - 48)
  else if 65 ≤ c ∧ c ≤ 70 then some (c - 55)
  else if 97 ≤ c ∧ c ≤ 102 then some (c - 87)
  else none

/-- Model of `urllib.parse.unquote`: decode `%XY` escapes (single-byte escapes; the
UTF-8 recombination of multi-byte sequences is not modelled — no claim
depends on it). -/
def unquoteStr : Str → Str
  | [] => []
  | 37 :: a :: b :: rest =>
    match hexVal a, hexVal b with
    | some x, some y => (16 * x + y) :: unquoteStr rest
    | _, _ => 37 :: unquoteStr (a :: b :: rest)
  | c :: rest => c :: unquoteStr rest

/-- Python `path.strip(chr(47))`: drop leading and trailing slashes. -/
def stripSlashes (t : Str) : Str :=
  ((t.dropWhile (fun c => c = 47)).reverse.dropWhile (fun c => c = 47)).reverse

/-- Source `_slug_from_href` (scraper.py): reject empty hrefs and hrefs whose
pre-fragment part (`href.split("#")[0]`) contains a `?`; otherwise take the
last non-empty path segment, URL-decode it, turn hyphens into spaces, trim,
and accept only a 2–60 character string of `[\w\s\-']` characters. -/
def _slug_from_href (href : Str) : Option Str :=
  if href = [] ∨ (takeBeforeCp href 35).contains 63 then none
  else
    let path := stripSlashes (urlparsePath href)
    if path = [] then none
    else
      match ((List.splitOn 47 path).filter (fun s => s ≠ [])).getLast? with
      | none => none
      | some seg =>
        let slug := pyStrip ((unquoteStr seg).map (fun c => if c = 45 then 32 else c))
        if slug.length < 2 ∨ 60 < slug.length ∨ ¬ slug.all allowedCp then none
        else some slug

/-- Source `_strip_trailing_ui_counter` (scraper.py): on the stripped text, the
regex `^(.+[A-Za-zÀ-ɏ])(\d+)$` forces the digit group to be the maximal
trailing digit run; it matches iff that run is non-empty, the character
before it is in the letter class, at least one more character precedes
(`.+`), and no newline occurs in the `.+` part. On a match the code returns
the stripped prefix group. -/
def _strip_trailing_ui_counter (text : Str) : Str :=
  let t := pyStrip text
  if t = [] then t
  else
    let digitsRev := t.reverse.takeWhile isDigitCp
    let pre := (t.reverse.dropWhile isDigitCp).reverse
    let lastIsLetter : Bool :=
      match pre.getLast? with
      | some c => isGroupLetterCp c
      | none => false
    if decide (digitsRev ≠ []) && decide (2 ≤ pre.length) && lastIsLetter &&
        ! pre.dropLast.contains 10 then
      pyStrip pre
    else t

/-! ## scraper.py — fetch model

Browser/DOM interaction is I/O; a `PageEnv` records what the environment
(pages, navigations, extractions) returned during one fetch attempt, and
`scrape_brands_from_url` is the source's control flow over that record. -/

/-- Result of one `page.goto`: Python returns `None`, returns a response
with a status, raises `PlaywrightTimeout`, or raises some other exception. -/
inductive NavOutcome where
  | noResponse
  | response (status : Nat)
  | timeout
  | exn (msg : Str)
deriving DecidableEq, Repr

/-- Environment of one fetch attempt.
`pageRaw u` is what `_extract_one_page_raw` produced on page `u` (already
respecting the `max_raw` budget, which is part of the extraction I/O);
`nextUrl u` is `_get_next_page_url`'s result on page `u`; `pageNav u` the
outcome of navigating to `u` during pagination; `maxPages` is
`SCRAPER_MAX_PAGES`; `isAboutyou` whether "aboutyou" occurs in the netloc. -/
structure PageEnv where
  initialNav : NavOutcome
  pageRaw : Str → List Str
  nextUrl : Str → Option Str
  pageNav : Str → NavOutcome
  maxPages : Nat
  isAboutyou : Bool

/-- The error-text heuristic of `scrape_brands_from_url`'s generic except
clause: "captcha"/"blocked" in the lowercased text or "403" anywhere. -/
def sniffBlocked (err : Str) : Bool :=
  isSubstring (cps "captcha") (lowerStr err) ||
  isSubstring (cps "blocked") (lowerStr err) ||
  isSubstring (cps "403") err

/-- The pagination `while True:` loop of `scrape_brands_from_url`
(lines 331–354): stop when the cap is met by the deduplicated names so far,
the visited count reaches `max_pages`, there is no (or an already-visited,
or falsy) next URL, or navigation fails or returns status ≥ 400; otherwise
visit the next URL and extend the raw list. The fuel argument only makes the
recursion structural: each iteration grows `visited`, which is bounded by
`max_pages`, so fuel `maxPages + 1` is never exhausted. -/
def paginateLoop (env : PageEnv) (cap : Option Nat) :
    Nat → List Str → Str → List Str → List Str
  | 0, _, _, allRaw => allRaw
  | fuel + 1, visited, current, allRaw =>
    if (match cap with
        | some k => decide (k ≤ (dedupe_brand_names allRaw).length)
        | none => (false : Bool)) then allRaw
    else if env.maxPages ≤ visited.length then allRaw
    else
      match env.nextUrl current with
      | none => allRaw
      | some nu =>
        if nu = [] ∨ visited.contains nu then allRaw
        else
          match env.pageNav nu with
          | NavOutcome.response s =>
            if 400 ≤ s then allRaw
            else paginateLoop env cap fuel (nu :: visited) nu (allRaw ++ env.pageRaw nu)
          | _ => allRaw

/-- Source `scrape_brands_from_url` (scraper.py): returns `(records, blocked,
error)` for one fetch attempt. Delays, resource blocking and the hard-site
session warm-up are pure I/O and do not affect the returned value; DOM
extraction results are read from `env`. -/
def scrape_brands_from_url (env : PageEnv) (url : Str) (sourceName : Str)
    (ts : Str) (maxBrandsPerUrl : Option Nat) :
    List BrandRecord × Bool × Option Str :=
  match env.initialNav with
  | NavOutcome.timeout => ([], false, some (cps "Timeout"))
  | NavOutcome.exn msg => ([], sniffBlocked msg, some msg)
  | NavOutcome.noResponse => ([], false, some (cps "No response"))
  | NavOutcome.response s =>
    if 400 ≤ s then
      ([], decide (s = 403 ∨ s = 429 ∨ s = 503), some (cps "HTTP " ++ natToStr s))
    else
      let raw₁ := paginateLoop env maxBrandsPerUrl (env.maxPages + 1) [url] url
        (env.pageRaw url)
      let raw₂ := if env.isAboutyou then raw₁.map _strip_trailing_ui_counter else raw₁
      let names₀ := dedupe_brand_names raw₂
      let names :=
        match maxBrandsPerUrl with
        | some k => if k < names₀.length then names₀.take k else names₀
        | none => names₀
      (names.map (fun n => { brand := n, source := sourceName, scrape_timestamp := ts }),
       false, none)

/-! ## scraper.py — retry loop and orchestrator

Environment-tunable numbers (`SCRAPE_RETRY_BASE`, `SCRAPE_RETRY_CAP`) and the
random jitter become explicit arguments; real arithmetic is modelled over ℚ
(the Python float computations on the values appearing in the claims are
exact or compare identically). -/

/-- Source `_retry_delay_seconds` (scraper.py): `min(cap, base * 2 ** attempt)` plus
a jitter drawn from `random.uniform(0, 1)`. -/
def _retry_delay_seconds (base cap : ℚ) (attempt : Nat) (jitter : ℚ) : ℚ :=
  min cap (base * 2 ^ attempt) + jitter

/-- Python truthiness of an `str | None` error value: `None` and the empty
string are falsy. -/
def errTruthy : Option Str → Bool
  | none => false
  | some s => decide (s ≠ [])

/-- What one iteration of `_scrape_one_retailer`'s try block produced:
either the tuple returned by `scrape_brands_from_url`, or the text of an
exception raised anywhere inside the try. -/
abbrev AttemptResult := Except Str (List BrandRecord × Bool × Option Str)

/-- Trace of `_scrape_one_retailer`'s retry loop: the returned
`(records, error)` pair, how many attempts ran, and the back-off delays
awaited between attempts. -/
structure RetryTrace where
  records : List BrandRecord
  error : Option Str
  attempts : Nat
  delays : List ℚ
deriving Repr

/-- The `for attempt in range(max_retries + 1)` loop of
`_scrape_one_retailer` (scraper.py, lines 406–442): before every attempt but
the first, wait `_retry_delay_seconds(attempt)`; an attempt whose error is
truthy and whose record list is empty (or that raised) stores the error and
continues; any other attempt returns `(records, None)`; exhaustion returns
`([], last_error)`. `attempt` is the loop index, `rem` the iterations left. -/
def scrapeOneAux (fetch : Nat → AttemptResult) (jit : Nat → ℚ) (base cap : ℚ) :
    Nat → Nat → Option Str → RetryTrace
  | _, 0, lastErr => { records := [], error := lastErr, attempts := 0, delays := [] }
  | attempt, rem + 1, lastErr =>
    let ds : List ℚ :=
      if 0 < attempt then [_retry_delay_seconds base cap attempt (jit attempt)] else []
    match fetch attempt with
    | Except.error e =>
      let t := scrapeOneAux fetch jit base cap (attempt + 1) rem (some e)
      { records := t.records, error := t.error, attempts := t.attempts + 1,
        delays := ds ++ t.delays }
    | Except.ok (records, _blocked, err) =>
      if errTruthy err && decide (records = []) then
        let t := scrapeOneAux fetch jit base cap (attempt + 1) rem err
        { records := t.records, error := t.error, attempts := t.attempts + 1,
          delays := ds ++ t.delays }
      else { records := records, error := none, attempts := 1, delays := ds }

/-- Source `_scrape_one_retailer` (scraper.py): reject tasks without a URL, then
run the retry loop. The `blocked` component of each attempt is discarded
(the source binds it to `_blocked`). Returns `(source, records, error)`
plus the retry trace. -/
def _scrape_one_retailer (fetch : Nat → AttemptResult) (jit : Nat → ℚ)
    (base cap : ℚ) (source : Str) (url : Option Str) (maxRetries : Nat) :
    (Str × List BrandRecord × Option Str) × RetryTrace :=
  if url = none ∨ url = some [] then
    ((source, [], some (cps "No brand list URL")),
     { records := [], error := some (cps "No brand list URL"),
       attempts := 0, delays := [] })
  else
    let t := scrapeOneAux fetch jit base cap 0 (maxRetries + 1) none
    ((source, t.records, t.error), t)

/-- One line of the site-result log (scrape_logger.py `log_site_result`);
`blocked_or_captcha` defaults to `False` when the caller does not pass it. -/
structure SiteResult where
  source : Str
  success : Bool
  brands_count : Nat
  error : Option Str
  blocked_or_captcha : Bool
deriving DecidableEq, Repr

/-- The result-merging loop of `run_pilot`'s parallel path (scraper.py,
lines 493–514), over the per-task `(source, records, error)` tuples that
`asyncio.gather` returns in task order: a failed task is logged with
`log_site_result(source, False, 0, error=err)` — `blocked_or_captcha` is
not passed and defaults to `False`; a successful task's records are
appended (truncated to the remaining global budget when `max_brands` is
set; a task arriving after the budget is met is neither appended nor
logged). Returns the accumulated records and the site-result log lines. -/
def runPilotParallelMerge :
    List (Str × List BrandRecord × Option Str) → Option Nat → List BrandRecord →
    List BrandRecord × List SiteResult
  | [], _, acc => (acc, [])
  | (source, records, err) :: rest, maxB, acc =>
    if errTruthy err && decide (records = []) then
      let r := runPilotParallelMerge rest maxB acc
      (r.1, { source := source, success := false, brands_count := 0,
              error := err, blocked_or_captcha := false } :: r.2)
    else
      match maxB with
      | some m =>
        if acc.length < m then
          let toAdd := records.take (m - acc.length)
          let r := runPilotParallelMerge rest maxB (acc ++ toAdd)
          (r.1, { source := source, success := true, brands_count := toAdd.length,
                  error := none, blocked_or_captcha := false } :: r.2)
        else runPilotParallelMerge rest maxB acc
      | none =>
        let r := runPilotParallelMerge rest maxB (acc ++ records)
        (r.1, { source := source, success := true, brands_count := records.length,
                error := none, blocked_or_captcha := false } :: r.2)

/-- Outcome of one task on `run_pilot`'s sequential path: an attempt
succeeded with `(records, blocked)`, or the budget was exhausted with the
last error and last blocked flag. -/
inductive SeqTaskResult where
  | success (records : List BrandRecord) (blocked : Bool)
  | exhausted (lastError : Option Str) (lastBlocked : Bool)
deriving DecidableEq, Repr

/-- The sequential-path sniff for exceptions (scraper.py line 584):
`"captcha" in e.lower() or "403" in e` — unlike `sniffBlocked`, "blocked"
is not tested here. -/
def seqSniffBlocked (e : Str) : Bool :=
  isSubstring (cps "captcha") (lowerStr e) || isSubstring (cps "403") e

/-- The sequential retry loop of `run_pilot` (scraper.py, lines 531–584):
like `scrapeOneAux`, but the `blocked` flag of a failing attempt (or the
sniffed flag of an exception) is remembered and surfaced on exhaustion. -/
def seqAttempts (fetch : Nat → AttemptResult) :
    Nat → Nat → Option Str → Bool → SeqTaskResult
  | _, 0, lastErr, lastBlocked => SeqTaskResult.exhausted lastErr lastBlocked
  | attempt, rem + 1, lastErr, lastBlocked =>
    match fetch attempt with
    | Except.error e => seqAttempts fetch (attempt + 1) rem (some e) (seqSniffBlocked e)
    | Except.ok (records, blocked, err) =>
      if errTruthy err && decide (records = []) then
        seqAttempts fetch (attempt + 1) rem err blocked
      else SeqTaskResult.success records blocked

/-- One task of `run_pilot`'s sequential path together with its per-attempt
environment. `fetch attempt needNow` is what `scrape_brands_from_url`
returned on that attempt given the per-call cap `need_now`. -/
structure SeqTask where
  source : Str
  url : Option Str
  fetch : Nat → Option Nat → AttemptResult

/-- Model of `run_pilot`'s sequential path (scraper.py, lines 516–589): stop early
once the global cap is met; skip and log tasks without a URL; otherwise run
the retry loop with `need_now` = per-retailer cap, else remaining global
budget, else no cap; log a success with the attempt's `blocked` flag and an
exhaustion with the last error and last blocked flag. -/
def runPilotSeq (maxRetries : Nat) (maxB perRetailer : Option Nat) :
    List SeqTask → List BrandRecord → List BrandRecord × List SiteResult
  | [], acc => (acc, [])
  | task :: rest, acc =>
    if (match maxB with
        | some m => decide (m ≤ acc.length)
        | none => (false : Bool)) then (acc, [])
    else
      if task.url = none ∨ task.url = some [] then
        let r := runPilotSeq maxRetries maxB perRetailer rest acc
        (r.1, { source := task.source, success := false, brands_count := 0,
                error := some (cps "No brand list URL"),
                blocked_or_captcha := false } :: r.2)
      else
        let needNow : Option Nat :=
          match perRetailer, maxB with
          | some k, _ => some k
          | none, some m => some (m - acc.length)
          | none, none => none
        match seqAttempts (fun a => task.fetch a needNow) 0 (maxRetries + 1) none false with
        | SeqTaskResult.exhausted lastErr lastBlocked =>
          let r := runPilotSeq maxRetries maxB perRetailer rest acc
          (r.1, { source := task.source, success := false, brands_count := 0,
                  error := lastErr, blocked_or_captcha := lastBlocked } :: r.2)
        | SeqTaskResult.success records blocked =>
          match perRetailer, maxB with
          | none, some m =>
            if acc.length < m then
              let toAdd := records.take (m - acc.length)
              let r := runPilotSeq maxRetries maxB perRetailer rest (acc ++ toAdd)
              (r.1, { source := task.source, success := true,
                      brands_count := toAdd.length, error := none,
                      blocked_or_captcha := blocked } :: r.2)
            else (acc, [])
          | _, _ =>
            let r := runPilotSeq maxRetries maxB perRetailer rest (acc ++ records)
            (r.1, { source := task.source, success := true,
                    brands_count := records.length, error := none,
                    blocked_or_captcha := blocked } :: r.2)

/-! ## Spec-modelled configurable normalizer (for the refinement claim)

Modelled from the spec: §4.1 — "The noise vocabulary is configurable at
call time (caller may supply extra words/phrases merged with a baseline
set)". Nothing in the source implements this; the definitions below follow
the spec's words, to be compared with the source's `normalize_brand_name`. -/

/-- Modelled from the spec: `is_noise_phrase` with caller-supplied extra
words and phrases merged into the baseline `NOISE_WORDS`/`NOISE_PHRASES`. -/
def is_noise_phrase_spec (extraWords extraPhrases : List Str) (text : Str) : Bool :=
  let t := pyStrip text
  if t.length < 2 then true
  else
    let tl := lowerStr t
    if (NOISE_WORDS ++ extraWords).contains tl then true
    else if (NOISE_PHRASES ++ extraPhrases).any (fun p => isSubstring p tl) then true
    else if letterGroupMatch t then true
    else if t.length / 2 ≤ tl.countP (fun c => isDigitCp c) then true
    else false

/-- Modelled from the spec: `normalize_brand_name` taking the configurable
noise vocabulary as an explicit argument (spec §4.1, §5, §9). -/
def normalize_brand_name_spec (extraWords extraPhrases : List Str) (raw : Str) : Str :=
  let s₁ := strip_emoji_and_symbols raw
  let s₂ := normalize_caps s₁
  let s := pyStrip s₂
  if s.length < 2 then []
  else if is_noise_phrase_spec extraWords extraPhrases s then []
  else s

/-! ## Proof support -/

/-- A word produced by `splitWs`: non-empty and whitespace-free. -/
def Word (u : Str) : Prop := u ≠ [] ∧ ∀ c ∈ u, isSpaceCp c = false

/-- The `prevCased` state of `titleGo` after consuming `l`, starting from
`b`. -/
def flagAfter (l : Str) (b : Bool) : Bool :=
  l.foldl (fun _ c => isCasedCp c) b

/-- Characters that can appear in `normalize_brand_name`'s output: allowed
by the strip filter and NFKC-fixed. -/
def cleanCp (c : Nat) : Prop := allowedCp c = true ∧ nfkcCp c = [c]

/-! ## Per-character lemmas -/

theorem nfkc_closed {c d : Nat} (h : d ∈ nfkcCp c) : nfkcCp d = [d] := by
  unfold nfkcCp at h
  split_ifs at h <;> simp only [List.mem_cons, List.mem_singleton, List.not_mem_nil] at h <;>
    rcases h with h | h <;> (try subst h) <;> (try rfl) <;> simp_all [nfkcCp]

theorem lower_lower (c : Nat) : lowerCp (lowerCp c) = lowerCp c := by
  unfold lowerCp
  split_ifs <;> omega

theorem cased_lower (c : Nat) : isCasedCp (lowerCp c) = isCasedCp c := by
  unfold isCasedCp isLetterCp isAsciiUpperCp isAsciiLowerCp isLatinExtLetterCp lowerCp
  split_ifs <;>
    (refine Bool.eq_iff_iff.mpr ?_
     simp only [Bool.or_eq_true, Bool.and_eq_true, decide_eq_true_eq]
     try omega)

theorem titleMap_lower (c : Nat) : titleMapCp (lowerCp c) = titleMapCp c := by
  unfold titleMapCp lowerCp
  split_ifs <;> first
  | rfl
  | omega
  | (congr 1 <;> omega)
  | (exfalso; omega)

theorem titleMap_ne_nil (c : Nat) : titleMapCp c ≠ [] := by
  unfold titleMapCp
  split_ifs <;> simp

theorem allowed_lower (c : Nat) : allowedCp (lowerCp c) = allowedCp c := by
  unfold allowedCp isWordCp isLetterCp isAsciiUpperCp isAsciiLowerCp isLatinExtLetterCp
    isDigitCp isSpaceCp lowerCp
  split_ifs <;>
    (refine Bool.eq_iff_iff.mpr ?_
     simp only [Bool.or_eq_true, Bool.and_eq_true, decide_eq_true_eq, beq_iff_eq]
     try omega)

theorem space_lower (c : Nat) : isSpaceCp (lowerCp c) = isSpaceCp c := by
  unfold isSpaceCp lowerCp
  split_ifs <;>
    (refine Bool.eq_iff_iff.mpr ?_
     simp only [Bool.or_eq_true, decide_eq_true_eq, beq_iff_eq]
     try omega)

theorem digit_lower (c : Nat) : isDigitCp (lowerCp c) = isDigitCp c := by
  unfold isDigitCp lowerCp
  split_ifs <;>
    (refine Bool.eq_iff_iff.mpr ?_
     simp only [Bool.and_eq_true, decide_eq_true_eq]
     try omega)

theorem space_titleMap {c d : Nat} (h : d ∈ titleMapCp c) : isSpaceCp d = isSpaceCp c := by
  unfold titleMapCp at h
  split_ifs at h with h1 h2 h3 <;>
    simp only [List.mem_cons, List.mem_singleton, List.not_mem_nil, or_false] at h <;>
    (try subst h2) <;>
    (first | subst h | rcases h with rfl | rfl) <;>
    (unfold isSpaceCp
     refine Bool.eq_iff_iff.mpr ?_
     simp only [Bool.or_eq_true, decide_eq_true_eq, beq_iff_eq]
     try omega)

theorem digit_titleMap {c d : Nat} (h : d ∈ titleMapCp c) : isDigitCp d = isDigitCp c := by
  unfold titleMapCp at h
  split_ifs at h with h1 h2 h3 <;>
    simp only [List.mem_cons, List.mem_singleton, List.not_mem_nil, or_false] at h <;>
    (try subst h2) <;>
    (first | subst h | rcases h with rfl | rfl) <;>
    (unfold isDigitCp
     refine Bool.eq_iff_iff.mpr ?_
     simp only [Bool.and_eq_true, decide_eq_true_eq]
     try omega)

theorem allowed_titleMap {c d : Nat} (h : d ∈ titleMapCp c) : allowedCp d = allowedCp c := by
  unfold titleMapCp at h
  split_ifs at h with h1 h2 h3 <;>
    simp only [List.mem_cons, List.mem_singleton, List.not_mem_nil, or_false] at h <;>
    (try subst h2) <;>
    (first | subst h | rcases h with rfl | rfl) <;>
    (unfold allowedCp isWordCp isLetterCp isAsciiUpperCp isAsciiLowerCp isLatinExtLetterCp
       isDigitCp isSpaceCp
     refine Bool.eq_iff_iff.mpr ?_
     simp only [Bool.or_eq_true, Bool.and_eq_true, decide_eq_true_eq, beq_iff_eq]
     try omega)

theorem cased_titleMap {c d : Nat} (h : d ∈ titleMapCp c) : isCasedCp d = isCasedCp c := by
  unfold titleMapCp at h
  split_ifs at h with h1 h2 h3 <;>
    simp only [List.mem_cons, List.mem_singleton, List.not_mem_nil, or_false] at h <;>
    (try subst h2) <;>
    (first | subst h | rcases h with rfl | rfl) <;>
    (unfold isCasedCp isLetterCp isAsciiUpperCp isAsciiLowerCp isLatinExtLetterCp
     refine Bool.eq_iff_iff.mpr ?_
     simp only [Bool.or_eq_true, Bool.and_eq_true, decide_eq_true_eq]
     try omega)

theorem nfkcCp_eq_self {c : Nat} (a1 : c ≠ 8482) (a2 : c ≠ 306) (a3 : c ≠ 307)
    (a4 : c ≠ 160) (a5 : c ≠ 178) (a6 : c ≠ 179) (a7 : c ≠ 185)
    (a8 : c ≠ 64257) (a9 : c ≠ 64258) : nfkcCp c = [c] := by
  unfold nfkcCp
  rw [if_neg a1, if_neg a2, if_neg a3, if_neg a4, if_neg a5, if_neg a6, if_neg a7,
    if_neg a8, if_neg a9]

theorem nfkc_fixed_lower {c : Nat} (h : nfkcCp c = [c]) :
    nfkcCp (lowerCp c) = [lowerCp c] := by
  unfold lowerCp
  split_ifs with h1 h2
  · exact nfkcCp_eq_self (by omega) (by omega) (by omega) (by omega) (by omega)
      (by omega) (by omega) (by omega) (by omega)
  · exact nfkcCp_eq_self (by omega) (by omega) (by omega) (by omega) (by omega)
      (by omega) (by omega) (by omega) (by omega)
  · exact h

theorem nfkc_fixed_titleMap {c d : Nat} (hc : nfkcCp c = [c]) (h : d ∈ titleMapCp c) :
    nfkcCp d = [d] := by
  unfold titleMapCp at h
  split_ifs at h with h1 h2 h3 <;>
    simp only [List.mem_cons, List.mem_singleton, List.not_mem_nil, or_false] at h
  · subst h
    exact nfkcCp_eq_self (by omega) (by omega) (by omega) (by omega) (by omega)
      (by omega) (by omega) (by omega) (by omega)
  · rcases h with rfl | rfl <;> rfl
  · subst h
    exact nfkcCp_eq_self (by omega) (by omega) (by omega) (by omega) (by omega)
      (by omega) (by omega) (by omega) (by omega)
  · subst h
    exact hc

theorem digit_allowed {c : Nat} (h : isDigitCp c = true) : allowedCp c = true := by
  unfold isDigitCp at h
  unfold allowedCp isWordCp isLetterCp isAsciiUpperCp isAsciiLowerCp isLatinExtLetterCp
    isDigitCp isSpaceCp
  simp only [Bool.and_eq_true, decide_eq_true_eq] at h
  simp only [Bool.or_eq_true, Bool.and_eq_true, decide_eq_true_eq, beq_iff_eq]
  omega

theorem space_not_digit {c : Nat} (h : isSpaceCp c = true) : isDigitCp c = false := by
  unfold isSpaceCp at h
  unfold isDigitCp
  simp only [Bool.or_eq_true, decide_eq_true_eq, beq_iff_eq] at h
  refine Bool.eq_false_iff.mpr ?_
  simp only [ne_eq, Bool.and_eq_true, decide_eq_true_eq, not_and]
  omega

/-! ## titleGo machinery -/

theorem flagAfter_nil (b : Bool) : flagAfter [] b = b := rfl

theorem flagAfter_cons (c : Nat) (l : Str) (b : Bool) :
    flagAfter (c :: l) b = flagAfter l (isCasedCp c) := rfl

theorem flagAfter_append (u v : Str) (b : Bool) :
    flagAfter (u ++ v) b = flagAfter v (flagAfter u b) := by
  induction u generalizing b with
  | nil => rfl
  | cons c u ih => simp only [List.cons_append, flagAfter_cons, ih]

theorem flagAfter_singleton (c : Nat) (b : Bool) :
    flagAfter [c] b = isCasedCp c := rfl

theorem titleGo_append (u v : Str) (b : Bool) :
    titleGo (u ++ v) b = titleGo u b ++ titleGo v (flagAfter u b) := by
  induction u generalizing b with
  | nil => rfl
  | cons c u ih =>
    simp only [List.cons_append, titleGo, List.append_eq, ih, flagAfter_cons,
      List.append_assoc]

/-- Round trip for one emitted chunk when the flag is `false`:
re-title-casing `titleMapCp c` reproduces it, and leaves the flag at the
casedness of `c`. -/
theorem titleGo_titleMap (c : Nat) :
    titleGo (titleMapCp c) false = titleMapCp c ∧
    flagAfter (titleMapCp c) false = isCasedCp c := by
  unfold titleMapCp
  split_ifs with h1 h2 h3
  · constructor
    · show titleMapCp (c - 32) ++ [] = [c - 32]
      unfold titleMapCp
      split_ifs <;> first | (simp; omega) | (exfalso; omega) | simp
    · show isCasedCp (c - 32) = isCasedCp c
      unfold isCasedCp isLetterCp isAsciiUpperCp isAsciiLowerCp isLatinExtLetterCp
      refine Bool.eq_iff_iff.mpr ?_
      simp only [Bool.or_eq_true, Bool.and_eq_true, decide_eq_true_eq]
      omega
  · subst h2
    constructor <;> rfl
  · constructor
    · show titleMapCp (c - 32) ++ titleGo [] (isCasedCp (c - 32)) = [c - 32]
      unfold titleMapCp titleGo
      split_ifs <;> first | (simp; omega) | (exfalso; omega) | simp
    · show isCasedCp (c - 32) = isCasedCp c
      unfold isCasedCp isLetterCp isAsciiUpperCp isAsciiLowerCp isLatinExtLetterCp
      refine Bool.eq_iff_iff.mpr ?_
      simp only [Bool.or_eq_true, Bool.and_eq_true, decide_eq_true_eq]
      omega
  · constructor
    · show titleMapCp c ++ [] = [c]
      unfold titleMapCp
      split_ifs <;> first | (exfalso; omega) | simp
    · exact flagAfter_singleton c false

/-- The map `titleGo` is idempotent and preserves the final flag. -/
theorem titleGo_idem (s : Str) (b : Bool) :
    titleGo (titleGo s b) b = titleGo s b ∧
    flagAfter (titleGo s b) b = flagAfter s b := by
  induction s generalizing b with
  | nil => exact ⟨rfl, rfl⟩
  | cons c rest ih =>
    have hrest := ih (isCasedCp c)
    cases b with
    | false =>
      have hc := titleGo_titleMap c
      constructor
      · show titleGo (titleMapCp c ++ titleGo rest (isCasedCp c)) false
            = titleMapCp c ++ titleGo rest (isCasedCp c)
        rw [titleGo_append, hc.1, hc.2, hrest.1]
      · show flagAfter (titleMapCp c ++ titleGo rest (isCasedCp c)) false
            = flagAfter rest (isCasedCp c)
        rw [flagAfter_append, hc.2, hrest.2]
    | true =>
      constructor
      · show titleGo ([lowerCp c] ++ titleGo rest (isCasedCp c)) true
            = [lowerCp c] ++ titleGo rest (isCasedCp c)
        rw [titleGo_append]
        show [lowerCp (lowerCp c)] ++ titleGo (titleGo rest (isCasedCp c))
            (flagAfter [lowerCp c] true) = [lowerCp c] ++ titleGo rest (isCasedCp c)
        rw [flagAfter_singleton, lower_lower, cased_lower, hrest.1]
      · show flagAfter ([lowerCp c] ++ titleGo rest (isCasedCp c)) true
            = flagAfter rest (isCasedCp c)
        rw [flagAfter_append, flagAfter_singleton, cased_lower, hrest.2]

/-- Lowercasing first does not change the result of `titleGo`. -/
theorem titleGo_map_lower (s : Str) (b : Bool) :
    titleGo (lowerStr s) b = titleGo s b := by
  induction s generalizing b with
  | nil => rfl
  | cons c rest ih =>
    show (if b then [lowerCp (lowerCp c)] else titleMapCp (lowerCp c)) ++
        titleGo (lowerStr rest) (isCasedCp (lowerCp c))
      = (if b then [lowerCp c] else titleMapCp c) ++ titleGo rest (isCasedCp c)
    rw [lower_lower, titleMap_lower, cased_lower, ih]

/-- Membership in a `titleGo` image comes from `titleMapCp` or `lowerCp` of
an input character. -/
theorem mem_titleGo {s : Str} {b : Bool} {d : Nat} (h : d ∈ titleGo s b) :
    ∃ c ∈ s, d ∈ titleMapCp c ∨ d = lowerCp c := by
  induction s generalizing b with
  | nil => cases h
  | cons c rest ih =>
    cases b with
    | false =>
      have h' : d ∈ titleMapCp c ∨ d ∈ titleGo rest (isCasedCp c) := by
        simpa [titleGo] using h
      rcases h' with h' | h'
      · exact ⟨c, List.mem_cons_self c rest, Or.inl h'⟩
      · obtain ⟨c₀, hc₀, hd⟩ := ih h'
        exact ⟨c₀, List.mem_cons_of_mem c hc₀, hd⟩
    | true =>
      have h' : d = lowerCp c ∨ d ∈ titleGo rest (isCasedCp c) := by
        simpa [titleGo] using h
      rcases h' with h' | h'
      · exact ⟨c, List.mem_cons_self c rest, Or.inr h'⟩
      · obtain ⟨c₀, hc₀, hd⟩ := ih h'
        exact ⟨c₀, List.mem_cons_of_mem c hc₀, hd⟩

theorem titleGo_ne_nil {s : Str} (hs : s ≠ []) (b : Bool) : titleGo s b ≠ [] := by
  cases s with
  | nil => exact absurd rfl hs
  | cons c rest =>
    simp only [titleGo, ne_eq, List.append_eq_nil]
    intro ⟨h1, _⟩
    cases b with
    | false => exact titleMap_ne_nil c h1
    | true => cases h1

/-! ## splitWs / joinSp machinery -/

theorem joinSp_cons (u : Str) (ws : List Str) :
    joinSp (u :: ws) = u ++ (if ws = [] then [] else 32 :: joinSp ws) := by
  cases ws with
  | nil => simp [joinSp]
  | cons v ws => simp [joinSp]

theorem joinSp_ne_nil {u : Str} (hu : u ≠ []) (ws : List Str) :
    joinSp (u :: ws) ≠ [] := by
  rw [joinSp_cons]
  simp [hu]

theorem splitWsAux_words {t acc : Str} (hacc : ∀ c ∈ acc, isSpaceCp c = false) :
    ∀ u ∈ splitWsAux t acc, u ≠ [] ∧ ∀ c ∈ u, isSpaceCp c = false := by
  induction t generalizing acc with
  | nil =>
    intro u hu
    unfold splitWsAux at hu
    split_ifs at hu with h
    · cases hu
    · simp only [List.mem_singleton] at hu
      subst hu
      refine ⟨by simpa using h, ?_⟩
      intro c hc
      exact hacc c (List.mem_reverse.mp hc)
  | cons c rest ih =>
    intro u hu
    unfold splitWsAux at hu
    split_ifs at hu with hsp hemp
    · exact ih (by intro c hc; cases hc) u hu
    · rcases List.mem_cons.mp hu with hu | hu
      · subst hu
        refine ⟨by simpa using hemp, ?_⟩
        intro d hd
        exact hacc d (List.mem_reverse.mp hd)
      · exact ih (by intro d hd; cases hd) u hu
    · refine ih ?_ u hu
      intro d hd
      rcases List.mem_cons.mp hd with rfl | hd
      · simpa using hsp
      · exact hacc d hd

theorem splitWs_words {t : Str} : ∀ u ∈ splitWs t, u ≠ [] ∧ ∀ c ∈ u, isSpaceCp c = false :=
  splitWsAux_words (by intro c hc; cases hc)

theorem mem_splitWsAux {t acc : Str} {u : Str} {c : Nat}
    (hu : u ∈ splitWsAux t acc) (hc : c ∈ u) : c ∈ t ∨ c ∈ acc := by
  induction t generalizing acc with
  | nil =>
    unfold splitWsAux at hu
    split_ifs at hu with h
    · cases hu
    · simp only [List.mem_singleton] at hu
      subst hu
      exact Or.inr (List.mem_reverse.mp hc)
  | cons a rest ih =>
    unfold splitWsAux at hu
    split_ifs at hu with hsp hemp
    · rcases ih hu with h | h
      · exact Or.inl (List.mem_cons_of_mem a h)
      · cases h
    · rcases List.mem_cons.mp hu with hu' | hu'
      · subst hu'
        exact Or.inr (List.mem_reverse.mp hc)
      · rcases ih hu' with h | h
        · exact Or.inl (List.mem_cons_of_mem a h)
        · cases h
    · rcases ih hu with h | h
      · exact Or.inl (List.mem_cons_of_mem a h)
      · rcases List.mem_cons.mp h with rfl | h
        · exact Or.inl (List.mem_cons_self _ _)
        · exact Or.inr h

theorem mem_splitWs {t u : Str} {c : Nat} (hu : u ∈ splitWs t) (hc : c ∈ u) : c ∈ t := by
  rcases mem_splitWsAux hu hc with h | h
  · exact h
  · cases h

theorem mem_joinSp {ws : List Str} {c : Nat} (h : c ∈ joinSp ws) :
    (∃ u ∈ ws, c ∈ u) ∨ c = 32 := by
  induction ws with
  | nil => cases h
  | cons u ws ih =>
    rw [joinSp_cons] at h
    rcases List.mem_append.mp h with h | h
    · exact Or.inl ⟨u, List.mem_cons_self u ws, h⟩
    · split_ifs at h with hws
      · cases h
      · rcases List.mem_cons.mp h with rfl | h
        · exact Or.inr rfl
        · rcases ih h with ⟨v, hv, hc⟩ | h
          · exact Or.inl ⟨v, List.mem_cons_of_mem u hv, hc⟩
          · exact Or.inr h

theorem splitWsAux_cons_of_nonspace {c : Nat} (hc : isSpaceCp c = false)
    (t acc : Str) : splitWsAux (c :: t) acc = splitWsAux t (c :: acc) := by
  rw [splitWsAux]
  rw [if_neg (by simp [hc])]

/-- The helper `splitWsAux` consumes a whitespace-free prefix into the accumulator. -/
theorem splitWsAux_consume_word {u : Str} (hu : ∀ c ∈ u, isSpaceCp c = false) :
    ∀ t acc, splitWsAux (u ++ t) acc = splitWsAux t (u.reverse ++ acc) := by
  induction u with
  | nil => intro t acc; rfl
  | cons c u ih =>
    intro t acc
    have hc : isSpaceCp c = false := hu c (List.mem_cons_self c u)
    rw [List.cons_append, splitWsAux_cons_of_nonspace hc,
      ih (by intro d hd; exact hu d (List.mem_cons_of_mem c hd)) t (c :: acc)]
    congr 1
    simp

/-- The model `splitWs` inverts `joinSp` on lists of words. -/
theorem splitWs_joinSp {ws : List Str}
    (hws : ∀ u ∈ ws, u ≠ [] ∧ ∀ c ∈ u, isSpaceCp c = false) :
    splitWs (joinSp ws) = ws := by
  induction ws with
  | nil => rfl
  | cons u ws ih =>
    obtain ⟨hne, hsp⟩ := hws u (List.mem_cons_self u ws)
    rw [joinSp_cons]
    unfold splitWs
    rw [splitWsAux_consume_word hsp _ []]
    cases ws with
    | nil =>
      show splitWsAux [] (u.reverse ++ []) = [u]
      unfold splitWsAux
      rw [if_neg (by simpa using hne)]
      simp
    | cons v ws' =>
      show splitWsAux (32 :: joinSp (v :: ws')) (u.reverse ++ []) = u :: v :: ws'
      unfold splitWsAux
      rw [if_pos (by decide), if_neg (by simpa using hne)]
      have := ih (by
        intro w hw
        exact hws w (List.mem_cons_of_mem u hw))
      unfold splitWs at this
      rw [this]
      simp

/-- The map `titleGo` distributes over space-joined words. -/
theorem titleGo_joinSp {ws : List Str}
    (hws : ∀ u ∈ ws, u ≠ [] ∧ ∀ c ∈ u, isSpaceCp c = false) :
    titleGo (joinSp ws) false = joinSp (ws.map (fun u => titleGo u false)) := by
  induction ws with
  | nil => rfl
  | cons u ws ih =>
    cases ws with
    | nil => simp [joinSp, List.map]
    | cons v ws' =>
      show titleGo (u ++ 32 :: joinSp (v :: ws')) false = _
      rw [titleGo_append]
      have h32 : titleGo (32 :: joinSp (v :: ws')) (flagAfter u false)
          = 32 :: titleGo (joinSp (v :: ws')) false := by
        show (if flagAfter u false then [lowerCp 32] else titleMapCp 32) ++
            titleGo (joinSp (v :: ws')) (isCasedCp 32)
          = 32 :: titleGo (joinSp (v :: ws')) false
        have : (if flagAfter u false then [lowerCp 32] else titleMapCp 32) = [32] := by
          cases flagAfter u false <;> rfl
        rw [this]
        rfl
      rw [h32, ih (by intro w hw; exact hws w (List.mem_cons_of_mem u hw))]
      show titleGo u false ++ 32 :: joinSp ((v :: ws').map (fun u => titleGo u false))
        = joinSp (titleGo u false :: (v :: ws').map (fun u => titleGo u false))
      rw [joinSp_cons]
      simp

/-- The map `titleGo` maps words to words. -/
theorem titleGo_word {u : Str} (hne : u ≠ []) (hsp : ∀ c ∈ u, isSpaceCp c = false)
    (b : Bool) : titleGo u b ≠ [] ∧ ∀ c ∈ titleGo u b, isSpaceCp c = false := by
  refine ⟨titleGo_ne_nil hne b, ?_⟩
  intro d hd
  obtain ⟨c, hc, hdc⟩ := mem_titleGo hd
  rcases hdc with hdc | rfl
  · rw [space_titleMap hdc]
    exact hsp c hc
  · rw [space_lower]
    exact hsp c hc

/-! ## pyStrip lemmas -/

theorem dropWhile_eq_self_of_head {l : Str} {p : Nat → Bool}
    (h : ∀ c, l.head? = some c → p c = false) : l.dropWhile p = l := by
  cases l with
  | nil => rfl
  | cons c rest => exact List.dropWhile_cons_of_neg (by simp [h c rfl])

theorem pyStrip_eq_self {t : Str}
    (h1 : ∀ c, t.head? = some c → isSpaceCp c = false)
    (h2 : ∀ c, t.reverse.head? = some c → isSpaceCp c = false) :
    pyStrip t = t := by
  unfold pyStrip
  rw [dropWhile_eq_self_of_head h1, dropWhile_eq_self_of_head h2, List.reverse_reverse]

theorem mem_of_head? {l : Str} {c : Nat} (h : l.head? = some c) : c ∈ l := by
  cases l with
  | nil => cases h
  | cons a rest =>
    simp only [List.head?_cons, Option.some.injEq] at h
    subst h
    exact List.mem_cons_self _ _

theorem joinSp_head_nonspace {ws : List Str}
    (hws : ∀ u ∈ ws, u ≠ [] ∧ ∀ c ∈ u, isSpaceCp c = false) :
    ∀ c, (joinSp ws).head? = some c → isSpaceCp c = false := by
  cases ws with
  | nil => intro c h; cases h
  | cons u ws =>
    intro c h
    obtain ⟨hne, hsp⟩ := hws u (List.mem_cons_self u ws)
    rw [joinSp_cons, List.head?_append] at h
    cases u with
    | nil => exact absurd rfl hne
    | cons a u' =>
      simp only [List.head?_cons, Option.or_some, Option.some.injEq] at h
      subst h
      exact hsp a (List.mem_cons_self _ _)

theorem joinSp_revhead_nonspace {ws : List Str}
    (hws : ∀ u ∈ ws, u ≠ [] ∧ ∀ c ∈ u, isSpaceCp c = false) :
    ∀ c, (joinSp ws).reverse.head? = some c → isSpaceCp c = false := by
  induction ws with
  | nil => intro c h; cases h
  | cons u ws ih =>
    intro c h
    obtain ⟨hne, hsp⟩ := hws u (List.mem_cons_self u ws)
    cases ws with
    | nil =>
      have : c ∈ u.reverse := mem_of_head? (by simpa [joinSp] using h)
      exact hsp c (List.mem_reverse.mp this)
    | cons v ws' =>
      have hJne : joinSp (v :: ws') ≠ [] :=
        joinSp_ne_nil (hws v (by simp)).1 ws'
      have hrw : (joinSp (u :: v :: ws')).reverse
          = (joinSp (v :: ws')).reverse ++ ([32] ++ u.reverse) := by
        rw [joinSp_cons, if_neg (by simp)]
        simp
      rw [hrw, List.head?_append] at h
      cases hJr : (joinSp (v :: ws')).reverse with
      | nil => exact absurd (List.reverse_eq_nil_iff.mp hJr) hJne
      | cons e r'' =>
        rw [hJr] at h
        simp only [List.head?_cons, Option.or_some, Option.some.injEq] at h
        have he : isSpaceCp e = false :=
          ih (by intro w hw; exact hws w (List.mem_cons_of_mem u hw)) e (by rw [hJr]; rfl)
        exact h ▸ he

/-! ## Pipeline lemmas for normalize_brand_name -/

theorem nfkcStr_eq_self {t : Str} (h : ∀ c ∈ t, nfkcCp c = [c]) : nfkcStr t = t := by
  induction t with
  | nil => rfl
  | cons c rest ih =>
    show nfkcCp c ++ nfkcStr rest = c :: rest
    rw [h c (List.mem_cons_self _ _), ih (by intro d hd; exact h d (List.mem_cons_of_mem c hd))]
    rfl

theorem mem_nfkcStr {t : Str} {c : Nat} (h : c ∈ nfkcStr t) : ∃ d ∈ t, c ∈ nfkcCp d :=
  List.mem_flatMap.mp h

theorem strip_eq_self {t : Str} (h : ∀ c ∈ t, allowedCp c = true ∧ nfkcCp c = [c]) :
    strip_emoji_and_symbols t = t := by
  unfold strip_emoji_and_symbols
  rw [nfkcStr_eq_self (fun c hc => (h c hc).2)]
  exact List.filter_eq_self.mpr (fun c hc => (h c hc).1)

/-- The words of the cleaned string, title-cased: `normalize_caps ∘
strip_emoji_and_symbols` always produces their space-join. -/
theorem normalize_caps_strip (x : Str) :
    normalize_caps (strip_emoji_and_symbols x)
      = joinSp (((splitWs (strip_emoji_and_symbols x)).map (fun u => titleGo u false))) := by
  unfold normalize_caps titleStr
  exact titleGo_joinSp (fun u hu => splitWs_words u hu)

theorem titleWords_words {s : Str} :
    ∀ u ∈ (splitWs s).map (fun u => titleGo u false),
      u ≠ [] ∧ ∀ c ∈ u, isSpaceCp c = false := by
  intro u hu
  obtain ⟨w, hw, rfl⟩ := List.mem_map.mp hu
  obtain ⟨hne, hsp⟩ := splitWs_words w hw
  exact titleGo_word hne hsp false

/-- The string `s` that `normalize_brand_name` length- and noise-checks is
the join of the title-cased words, with no strip needed. -/
theorem normalize_strip_join (x : Str) :
    pyStrip (normalize_caps (strip_emoji_and_symbols x))
      = normalize_caps (strip_emoji_and_symbols x) := by
  rw [normalize_caps_strip]
  exact pyStrip_eq_self (joinSp_head_nonspace titleWords_words)
    (joinSp_revhead_nonspace titleWords_words)

/-- Rewriting `normalize_brand_name` in terms of the join of title-cased words. -/
theorem normalize_eq_joined (x : Str) :
    normalize_brand_name x =
      (if (joinSp ((splitWs (strip_emoji_and_symbols x)).map
            (fun u => titleGo u false))).length < 2 then []
       else if is_noise_phrase (joinSp ((splitWs (strip_emoji_and_symbols x)).map
            (fun u => titleGo u false))) then []
       else joinSp ((splitWs (strip_emoji_and_symbols x)).map
            (fun u => titleGo u false))) := by
  show (if (pyStrip (normalize_caps (strip_emoji_and_symbols x))).length < 2 then []
        else if is_noise_phrase (pyStrip (normalize_caps (strip_emoji_and_symbols x)))
        then []
        else pyStrip (normalize_caps (strip_emoji_and_symbols x))) = _
  rw [normalize_strip_join, normalize_caps_strip]

theorem normalize_chars {x : Str} {c : Nat} (h : c ∈ normalize_brand_name x) :
    allowedCp c = true ∧ nfkcCp c = [c] := by
  rw [normalize_eq_joined] at h
  split_ifs at h with h1 h2
  · cases h
  · cases h
  · rcases mem_joinSp h with ⟨u, hu, hc⟩ | rfl
    · obtain ⟨w, hw, rfl⟩ := List.mem_map.mp hu
      obtain ⟨d, hd, hcd⟩ := mem_titleGo hc
      have hdx : d ∈ strip_emoji_and_symbols x := mem_splitWs hw hd
      unfold strip_emoji_and_symbols at hdx
      have hall : allowedCp d = true := (List.mem_filter.mp hdx).2
      have hnf : nfkcCp d = [d] :=
        nfkc_closed (mem_nfkcStr (List.mem_filter.mp hdx).1).choose_spec.2
      rcases hcd with hcd | rfl
      · exact ⟨(allowed_titleMap hcd).trans hall, nfkc_fixed_titleMap hnf hcd⟩
      · exact ⟨(allowed_lower d).trans hall, nfkc_fixed_lower hnf⟩
    · exact ⟨by decide, by decide⟩

/-! ## Idempotence of normalization -/

/-- A non-empty `normalize_brand_name` output is a fixed point. -/
theorem normalize_fix {x : Str} (h : normalize_brand_name x ≠ []) :
    normalize_brand_name (normalize_brand_name x) = normalize_brand_name x := by
  have hEq := normalize_eq_joined x
  rw [hEq] at h
  split_ifs at h with h1 h2
  · exact absurd rfl h
  · exact absurd rfl h
  have ha : normalize_brand_name x
      = joinSp ((splitWs (strip_emoji_and_symbols x)).map (fun u => titleGo u false)) := by
    rw [hEq, if_neg h1, if_neg h2]
  have hwords := titleWords_words (s := strip_emoji_and_symbols x)
  have hchars : ∀ c ∈ joinSp ((splitWs (strip_emoji_and_symbols x)).map
      (fun u => titleGo u false)), allowedCp c = true ∧ nfkcCp c = [c] := by
    intro c hc
    exact normalize_chars (x := x) (by rw [ha]; exact hc)
  have hstrip := strip_eq_self hchars
  have hsplit := splitWs_joinSp hwords
  have hmap : ((splitWs (strip_emoji_and_symbols x)).map (fun u => titleGo u false)).map
      (fun u => titleGo u false)
      = (splitWs (strip_emoji_and_symbols x)).map (fun u => titleGo u false) := by
    rw [List.map_map]
    exact List.map_congr_left (fun w _ => (titleGo_idem w false).1)
  rw [ha, normalize_eq_joined, hstrip, hsplit, hmap, if_neg h1, if_neg h2]

/-- Idempotence of `normalize_brand_name`. -/
theorem normalize_idem (x : Str) :
    normalize_brand_name (normalize_brand_name x) = normalize_brand_name x := by
  by_cases h : normalize_brand_name x = []
  · rw [h]
    rfl
  · exact normalize_fix h

/-! ## dedupe_brand_names lemmas -/

theorem dedupeGo_sublist (names seen : List Str) :
    List.Sublist (dedupeGo names seen) (names.map normalize_brand_name) := by
  induction names generalizing seen with
  | nil => exact List.Sublist.refl _
  | cons n rest ih =>
    show List.Sublist (dedupeGo (n :: rest) seen)
      (normalize_brand_name n :: rest.map normalize_brand_name)
    rw [dedupeGo]
    split_ifs with h
    · exact List.Sublist.cons₂ _ (ih _)
    · exact List.Sublist.cons _ (ih _)

theorem dedupeGo_mem {names seen : List Str} :
    ∀ m ∈ dedupeGo names seen,
      m ∉ seen ∧ m ≠ [] ∧ ∃ n ∈ names, m = normalize_brand_name n := by
  induction names generalizing seen with
  | nil => intro m hm; cases hm
  | cons n rest ih =>
    intro m hm
    rw [dedupeGo] at hm
    split_ifs at hm with h
    · rcases List.mem_cons.mp hm with rfl | hm'
      · refine ⟨by simpa using h.2, h.1, n, List.mem_cons_self _ _, rfl⟩
      · obtain ⟨hseen, hne, n', hn', hm'eq⟩ := ih m hm'
        exact ⟨fun hc => hseen (List.mem_cons_of_mem _ hc), hne,
          n', List.mem_cons_of_mem _ hn', hm'eq⟩
    · obtain ⟨hseen, hne, n', hn', hmeq⟩ := ih m hm
      exact ⟨hseen, hne, n', List.mem_cons_of_mem _ hn', hmeq⟩

theorem dedupeGo_nodup (names : List Str) : ∀ seen, (dedupeGo names seen).Nodup := by
  induction names with
  | nil => intro seen; exact List.nodup_nil
  | cons n rest ih =>
    intro seen
    rw [dedupeGo]
    split_ifs with h
    · refine List.Nodup.cons ?_ (ih _)
      intro hc
      exact (dedupeGo_mem _ hc).1 (List.mem_cons_self _ _)
    · exact ih seen

/-- The loop `dedupeGo` leaves a list of distinct, unseen, non-empty fixed points
unchanged. -/
theorem dedupeGo_fixed {l : List Str} (hnd : l.Nodup)
    (hfix : ∀ m ∈ l, normalize_brand_name m = m ∧ m ≠ []) :
    ∀ seen, (∀ m ∈ l, m ∉ seen) → dedupeGo l seen = l := by
  induction l with
  | nil => intro seen _; rfl
  | cons m rest ih =>
    intro seen hseen
    obtain ⟨hm, hmne⟩ := hfix m (List.mem_cons_self _ _)
    rw [dedupeGo]
    rw [if_pos ?_]
    · congr 1
      rw [hm]
      refine ih (List.Nodup.of_cons hnd)
        (fun m' hm' => hfix m' (List.mem_cons_of_mem _ hm')) _ ?_
      intro m' hm'
      simp only [List.mem_cons]
      push_neg
      refine ⟨?_, hseen m' (List.mem_cons_of_mem _ hm')⟩
      intro hEq
      exact (List.nodup_cons.mp hnd).1 (hEq ▸ hm')
    · rw [hm]
      refine ⟨hmne, ?_⟩
      simpa using hseen m (List.mem_cons_self _ _)

/-- The function `dedupe_brand_names` is idempotent. -/
theorem dedupe_idem (names : List Str) :
    dedupe_brand_names (dedupe_brand_names names) = dedupe_brand_names names := by
  unfold dedupe_brand_names
  refine dedupeGo_fixed (dedupeGo_nodup names []) ?_ []
    (by intro m _ hm; cases hm)
  intro m hm
  obtain ⟨_, hne, n, _, rfl⟩ := dedupeGo_mem _ hm
  exact ⟨normalize_fix hne, hne⟩

/-! ## Case-insensitive determination of normalized names -/

theorem splitWsAux_lower (t : Str) :
    ∀ acc, splitWsAux (lowerStr t) (lowerStr acc) = (splitWsAux t acc).map lowerStr := by
  induction t with
  | nil =>
    intro acc
    show (if lowerStr acc = [] then [] else [(lowerStr acc).reverse])
      = (if acc = [] then [] else [acc.reverse]).map lowerStr
    by_cases h : acc = []
    · rw [if_pos h, if_pos (by rw [h]; rfl)]
      rfl
    · rw [if_neg h, if_neg (by simpa [lowerStr] using h)]
      simp [lowerStr]
  | cons c rest ih =>
    intro acc
    show splitWsAux (lowerCp c :: lowerStr rest) (lowerStr acc) = _
    rw [splitWsAux, splitWsAux]
    rw [space_lower]
    by_cases hsp : isSpaceCp c = true
    · rw [if_pos hsp, if_pos hsp]
      by_cases hacc : acc = []
      · rw [if_pos (by rw [hacc]; rfl), if_pos hacc]
        exact ih []
      · rw [if_neg (by simpa [lowerStr] using hacc), if_neg hacc]
        have hih : splitWsAux (lowerStr rest) [] = (splitWsAux rest []).map lowerStr :=
          ih []
        rw [hih, List.map_cons]
        congr 1
        simp [lowerStr]
    · rw [if_neg hsp, if_neg hsp]
      exact ih (c :: acc)

theorem splitWs_lower (t : Str) : splitWs (lowerStr t) = (splitWs t).map lowerStr := by
  have := splitWsAux_lower t []
  simpa [splitWs, lowerStr] using this

/-- Lowercasing a non-empty normalization output does not change how it
re-normalizes: the output is recovered. -/
theorem normalize_lower_fix {x : Str} (h : normalize_brand_name x ≠ []) :
    normalize_brand_name (lowerStr (normalize_brand_name x)) = normalize_brand_name x := by
  have hEq := normalize_eq_joined x
  rw [hEq] at h
  split_ifs at h with h1 h2
  · exact absurd rfl h
  · exact absurd rfl h
  have ha : normalize_brand_name x
      = joinSp ((splitWs (strip_emoji_and_symbols x)).map (fun u => titleGo u false)) := by
    rw [hEq, if_neg h1, if_neg h2]
  have hwords := titleWords_words (s := strip_emoji_and_symbols x)
  have hchars : ∀ c ∈ lowerStr (joinSp ((splitWs (strip_emoji_and_symbols x)).map
      (fun u => titleGo u false))), allowedCp c = true ∧ nfkcCp c = [c] := by
    intro c hc
    obtain ⟨d, hd, rfl⟩ := List.mem_map.mp hc
    have hdclean := normalize_chars (x := x) (by rw [ha]; exact hd)
    exact ⟨(allowed_lower d).trans hdclean.1, nfkc_fixed_lower hdclean.2⟩
  have hstrip := strip_eq_self hchars
  have hsplit := splitWs_joinSp hwords
  have hmaplow : ((((splitWs (strip_emoji_and_symbols x)).map
        (fun u => titleGo u false)).map lowerStr).map (fun u => titleGo u false))
      = (splitWs (strip_emoji_and_symbols x)).map (fun u => titleGo u false) := by
    rw [List.map_map, List.map_map]
    refine List.map_congr_left ?_
    intro w _
    show titleGo (lowerStr (titleGo w false)) false = titleGo w false
    rw [titleGo_map_lower]
    exact (titleGo_idem w false).1
  rw [ha, normalize_eq_joined, hstrip, splitWs_lower, hsplit, hmaplow, if_neg h1, if_neg h2]

/-- Two non-empty normalization outputs that agree up to case are equal. -/
theorem normalize_det_lower {x y : Str} (hx : normalize_brand_name x ≠ [])
    (hy : normalize_brand_name y ≠ [])
    (h : lowerStr (normalize_brand_name x) = lowerStr (normalize_brand_name y)) :
    normalize_brand_name x = normalize_brand_name y := by
  calc normalize_brand_name x
      = normalize_brand_name (lowerStr (normalize_brand_name x)) :=
        (normalize_lower_fix hx).symm
    _ = normalize_brand_name (lowerStr (normalize_brand_name y)) := by rw [h]
    _ = normalize_brand_name y := normalize_lower_fix hy

/-- Distinct survivors of `dedupe_brand_names` differ even up to case. -/
theorem dedupe_pairwise_lower (names : List Str) :
    (dedupe_brand_names names).Pairwise (fun a b => lowerStr a ≠ lowerStr b) := by
  have hnd : (dedupe_brand_names names).Nodup := dedupeGo_nodup names []
  refine List.Pairwise.imp_of_mem ?_ hnd
  intro a b ha hb hne hlow
  obtain ⟨_, hane, na, _, rfl⟩ := dedupeGo_mem _ ha
  obtain ⟨_, hbne, nb, _, rfl⟩ := dedupeGo_mem _ hb
  exact hne (normalize_det_lower hane hbne hlow)

/-- The capped, deduplicated record list: non-empty brands, case-insensitive
uniqueness, and the cap. -/
theorem capped_records_spec (raw : List Str) (k : Nat) (src ts : Str) :
    (∀ rec ∈ (if k < (dedupe_brand_names raw).length then (dedupe_brand_names raw).take k
        else dedupe_brand_names raw).map
        (fun n => ({ brand := n, source := src, scrape_timestamp := ts } : BrandRecord)),
      rec.brand ≠ []) ∧
    ((if k < (dedupe_brand_names raw).length then (dedupe_brand_names raw).take k
        else dedupe_brand_names raw).map
        (fun n => ({ brand := n, source := src, scrape_timestamp := ts } : BrandRecord))).Pairwise
      (fun a b => lowerStr a.brand ≠ lowerStr b.brand) ∧
    ((if k < (dedupe_brand_names raw).length then (dedupe_brand_names raw).take k
        else dedupe_brand_names raw).map
        (fun n => ({ brand := n, source := src, scrape_timestamp := ts } : BrandRecord))).length
      ≤ k := by
  have hsub : List.Sublist (if k < (dedupe_brand_names raw).length
      then (dedupe_brand_names raw).take k else dedupe_brand_names raw)
      (dedupe_brand_names raw) := by
    split_ifs
    · exact List.take_sublist k _
    · exact List.Sublist.refl _
  refine ⟨?_, ?_, ?_⟩
  · intro rec hrec
    obtain ⟨n, hn, rfl⟩ := List.mem_map.mp hrec
    exact (dedupeGo_mem _ (hsub.mem hn)).2.1
  · refine List.pairwise_map.mpr ?_
    exact List.Pairwise.sublist hsub (dedupe_pairwise_lower raw)
  · rw [List.length_map]
    split_ifs with h
    · rw [List.length_take]
      omega
    · omega

theorem indexOf_cons_self_str (a : Str) (l : List Str) : List.indexOf a (a :: l) = 0 := by
  simp [List.indexOf_cons]

theorem indexOf_cons_ne_str {a b : Str} (l : List Str) (h : b ≠ a) :
    List.indexOf a (b :: l) = List.indexOf a l + 1 := by
  rw [List.indexOf_cons]
  have hb : (b == a) = false := by simpa using h
  rw [hb]
  rfl

/-- Survivors of `dedupeGo` are ordered by the position of their first
occurrence among the normalized inputs. -/
theorem dedupeGo_pairwise_indexOf (names : List Str) :
    ∀ seen, (dedupeGo names seen).Pairwise (fun a b =>
      (names.map normalize_brand_name).indexOf a
        < (names.map normalize_brand_name).indexOf b) := by
  induction names with
  | nil => intro seen; exact List.Pairwise.nil
  | cons n rest ih =>
    intro seen
    rw [dedupeGo]
    split_ifs with h
    · rw [List.map_cons, List.pairwise_cons]
      constructor
      · intro b hb
        obtain ⟨hbseen, _, _⟩ := dedupeGo_mem _ hb
        have hbne : normalize_brand_name n ≠ b :=
          fun hEq => hbseen (by rw [← hEq]; exact List.mem_cons_self _ _)
        rw [indexOf_cons_self_str, indexOf_cons_ne_str _ hbne]
        exact Nat.succ_pos _
      · refine List.Pairwise.imp_of_mem ?_ (ih (normalize_brand_name n :: seen))
        intro a b ha hb hR
        have hane : normalize_brand_name n ≠ a := fun hEq =>
          (dedupeGo_mem _ ha).1 (by rw [← hEq]; exact List.mem_cons_self _ _)
        have hbne : normalize_brand_name n ≠ b := fun hEq =>
          (dedupeGo_mem _ hb).1 (by rw [← hEq]; exact List.mem_cons_self _ _)
        rw [indexOf_cons_ne_str _ hane, indexOf_cons_ne_str _ hbne]
        exact Nat.succ_lt_succ hR
    · have hm : normalize_brand_name n = [] ∨ normalize_brand_name n ∈ seen := by
        by_cases h1 : normalize_brand_name n = []
        · exact Or.inl h1
        · right
          by_contra h2
          exact h (by simpa [h1] using h2)
      rw [List.map_cons]
      refine List.Pairwise.imp_of_mem ?_ (ih seen)
      intro a b ha hb hR
      obtain ⟨haseen, hane, _⟩ := dedupeGo_mem _ ha
      obtain ⟨hbseen, hbne, _⟩ := dedupeGo_mem _ hb
      have hna : normalize_brand_name n ≠ a := by
        rcases hm with hm | hm
        · exact fun hEq => hane (hEq ▸ hm)
        · exact fun hEq => haseen (hEq ▸ hm)
      have hnb : normalize_brand_name n ≠ b := by
        rcases hm with hm | hm
        · exact fun hEq => hbne (hEq ▸ hm)
        · exact fun hEq => hbseen (hEq ▸ hm)
      rw [indexOf_cons_ne_str _ hna, indexOf_cons_ne_str _ hnb]
      exact Nat.succ_lt_succ hR

/-! ## Claim theorems -/

/-- C3: for every fetch attempt whose navigation response has HTTP status
`s ≥ 400`, `scrape_brands_from_url` returns an empty record list and a
non-null error, with `blocked = true` iff `s` is 403, 429 or 503 (so a 404
or 500 never sets it). -/
theorem C3_http_error_classification (env : PageEnv) (url src ts : Str)
    (cap : Option Nat) (s : Nat) (h : env.initialNav = NavOutcome.response s)
    (hs : 400 ≤ s) :
    (scrape_brands_from_url env url src ts cap).1 = [] ∧
    (scrape_brands_from_url env url src ts cap).2.2 ≠ none ∧
    ((scrape_brands_from_url env url src ts cap).2.1 = true ↔
      (s = 403 ∨ s = 429 ∨ s = 503)) := by
  simp only [scrape_brands_from_url, h]
  rw [if_pos hs]
  refine ⟨rfl, by simp, ?_⟩
  simp

/-- Witness for C3 at concrete inputs: a 403 response is blocked with an
error; a 404 response errors without being blocked. -/
theorem C3_http_error_classification_witness :
    ((scrape_brands_from_url
        ⟨NavOutcome.response 403, fun _ => [], fun _ => none,
          fun _ => NavOutcome.noResponse, 10, false⟩
        (cps "u") (cps "s") (cps "t") none).1 = [] ∧
      (scrape_brands_from_url
        ⟨NavOutcome.response 403, fun _ => [], fun _ => none,
          fun _ => NavOutcome.noResponse, 10, false⟩
        (cps "u") (cps "s") (cps "t") none).2.2 ≠ none ∧
      ((scrape_brands_from_url
        ⟨NavOutcome.response 403, fun _ => [], fun _ => none,
          fun _ => NavOutcome.noResponse, 10, false⟩
        (cps "u") (cps "s") (cps "t") none).2.1 = true ↔
        (403 = 403 ∨ 403 = 429 ∨ 403 = 503))) ∧
    ((scrape_brands_from_url
        ⟨NavOutcome.response 404, fun _ => [], fun _ => none,
          fun _ => NavOutcome.noResponse, 10, false⟩
        (cps "u") (cps "s") (cps "t") none).2.1 = true ↔
        (404 = 403 ∨ 404 = 429 ∨ 404 = 503)) :=
  ⟨C3_http_error_classification _ _ _ _ _ 403 rfl (by decide),
   (C3_http_error_classification _ _ _ _ _ 404 rfl (by decide)).2.2⟩

/-- C5: every successful fetch with `capHint = k` returns records whose
brands are non-empty, pairwise distinct up to case, and at most `k` many. -/
theorem C5_successful_fetch_invariants (env : PageEnv) (url src ts : Str)
    (k : Nat) (s : Nat) (h : env.initialNav = NavOutcome.response s)
    (hs : s < 400) :
    (∀ rec ∈ (scrape_brands_from_url env url src ts (some k)).1, rec.brand ≠ []) ∧
    ((scrape_brands_from_url env url src ts (some k)).1.Pairwise
      (fun a b => lowerStr a.brand ≠ lowerStr b.brand)) ∧
    (scrape_brands_from_url env url src ts (some k)).1.length ≤ k := by
  simp only [scrape_brands_from_url, h]
  rw [if_neg (show ¬ 400 ≤ s by omega)]
  exact capped_records_spec _ k src ts

/-- Witness for C5: a successful fetch (status 200) over a page yielding
three raw anchors, capped at 2. -/
theorem C5_successful_fetch_invariants_witness :
    (∀ rec ∈ (scrape_brands_from_url
        ⟨NavOutcome.response 200,
          fun _ => [cps "NIKE", cps "nike ", cps "Adidas"],
          fun _ => none, fun _ => NavOutcome.noResponse, 10, false⟩
        (cps "u") (cps "s") (cps "t") (some 2)).1, rec.brand ≠ []) ∧
    ((scrape_brands_from_url
        ⟨NavOutcome.response 200,
          fun _ => [cps "NIKE", cps "nike ", cps "Adidas"],
          fun _ => none, fun _ => NavOutcome.noResponse, 10, false⟩
        (cps "u") (cps "s") (cps "t") (some 2)).1.Pairwise
      (fun a b => lowerStr a.brand ≠ lowerStr b.brand)) ∧
    (scrape_brands_from_url
        ⟨NavOutcome.response 200,
          fun _ => [cps "NIKE", cps "nike ", cps "Adidas"],
          fun _ => none, fun _ => NavOutcome.noResponse, 10, false⟩
        (cps "u") (cps "s") (cps "t") (some 2)).1.length ≤ 2 :=
  C5_successful_fetch_invariants _ _ _ _ 2 200 rfl (by decide)

/-- C6: normalization is idempotent:
`normalize_brand_name (normalize_brand_name x) = normalize_brand_name x`. -/
theorem C6_normalize_idempotent (x : Str) :
    normalize_brand_name (normalize_brand_name x) = normalize_brand_name x :=
  normalize_idem x

/-- C7: deduplication is idempotent and order-stable: `dedupe (dedupe xs) =
dedupe xs`; the survivors form a subsequence of the normalized inputs, and
are ordered by the positions of their first occurrences among them. -/
theorem C7_dedupe_idempotent_stable (xs : List Str) :
    dedupe_brand_names (dedupe_brand_names xs) = dedupe_brand_names xs ∧
    List.Sublist (dedupe_brand_names xs) (xs.map normalize_brand_name) ∧
    (dedupe_brand_names xs).Pairwise (fun a b =>
      (xs.map normalize_brand_name).indexOf a
        < (xs.map normalize_brand_name).indexOf b) :=
  ⟨dedupe_idem xs, dedupeGo_sublist xs [], dedupeGo_pairwise_indexOf xs []⟩

/-- C10: `_slug_from_href` rejects every href whose pre-fragment part
contains a query string: if `?` occurs in `href.split("#")[0]`, no slug
candidate is produced. -/
theorem C10_query_string_rejected (href : Str)
    (h : 63 ∈ takeBeforeCp href 35) : _slug_from_href href = none := by
  unfold _slug_from_href
  rw [if_pos]
  exact Or.inr (by simpa using h)

/-- Witness for C10: a brand-path URL with query parameters yields no slug. -/
theorem C10_query_string_rejected_witness :
    63 ∈ takeBeforeCp (cps "/brands/acme-co?page=2") 35 ∧
    _slug_from_href (cps "/brands/acme-co?page=2") = none :=
  ⟨by decide, C10_query_string_rejected (cps "/brands/acme-co?page=2") (by decide)⟩

theorem is_noise_spec_empty (t : Str) :
    is_noise_phrase_spec [] [] t = is_noise_phrase t := by
  unfold is_noise_phrase_spec is_noise_phrase
  rw [List.append_nil, List.append_nil]

/-- C1 (amended): the noise vocabulary is *not* configurable at call time —
the source's `normalize_brand_name` takes only the raw string; it coincides
with the spec's configurable normalizer instantiated at the empty extra
vocabulary, and (being a plain function of its one argument over the
immutable module constants) its result depends only on that argument. -/
theorem C1_normalizer_is_fixed_vocab_instance (x : Str) :
    normalize_brand_name x = normalize_brand_name_spec [] [] x := by
  unfold normalize_brand_name normalize_brand_name_spec
  simp only [is_noise_spec_empty]

/-- C1 counterexample: the claim's call-time configurability does not hold
of the source function. Merging the extra word "zzz" into the vocabulary
(as the spec prescribes) rejects the raw string "zzz", but the source's
`normalize_brand_name` — which accepts no such configuration — returns
"Zzz"; no argument of the source function can express the configured
behaviour. -/
theorem C1_no_call_time_configuration :
    normalize_brand_name_spec [cps "zzz"] [] (cps "zzz") = [] ∧
    normalize_brand_name (cps "zzz") = cps "Zzz" := by decide

/-- C9 (code bug): `strip_emoji_and_symbols` keeps the underscore, which is
neither a letter, digit, space, hyphen nor apostrophe — regex `\w` includes
`_`, contradicting the function's own docstring ("keep letters, numbers,
spaces, hyphen, apostrophe") and the spec. Evaluated at the failing input
"a_b". -/
theorem C9_underscore_survives_strip :
    strip_emoji_and_symbols (cps "a_b") = cps "a_b" ∧
    95 ∈ strip_emoji_and_symbols (cps "a_b") ∧
    isLetterCp 95 = false ∧ isDigitCp 95 = false ∧ isSpaceCp 95 = false ∧
    (95 : Nat) ≠ 45 ∧ (95 : Nat) ≠ 39 := by decide

/-! ## Counting machinery for the noise-rejection claim -/

theorem countP_digit_filter (x : Str) :
    (x.filter allowedCp).countP (fun c => isDigitCp c)
      = x.countP (fun c => isDigitCp c) := by
  rw [List.countP_filter]
  refine List.countP_congr ?_
  intro a _
  constructor
  · intro h
    simp only [Bool.and_eq_true] at h
    exact h.1
  · intro h
    simp only [Bool.and_eq_true]
    exact ⟨h, digit_allowed h⟩

theorem countP_lowerStr_digit (t : Str) :
    (lowerStr t).countP (fun c => isDigitCp c) = t.countP (fun c => isDigitCp c) := by
  unfold lowerStr
  rw [List.countP_map]
  exact List.countP_congr (fun a _ => by rw [Function.comp_apply, digit_lower])

theorem countP_joinSp_cons {p : Nat → Bool} (h32 : p 32 = false) (u : Str)
    (ws : List Str) :
    (joinSp (u :: ws)).countP p = u.countP p + (joinSp ws).countP p := by
  rw [joinSp_cons]
  split_ifs with h
  · subst h
    simp [joinSp]
  · rw [List.countP_append, List.countP_cons, h32]
    simp

theorem length_joinSp_cons (u : Str) (ws : List Str) :
    (joinSp (u :: ws)).length
      = u.length + (if ws = [] then 0 else 1 + (joinSp ws).length) := by
  rw [joinSp_cons]
  split_ifs with h <;> simp [Nat.add_comm, Nat.add_left_comm]

/-- Collapsing whitespace preserves the count of any non-whitespace class
and never lengthens the string. -/
theorem splitWsAux_count_len {p : Nat → Bool}
    (hsp : ∀ c, isSpaceCp c = true → p c = false) :
    ∀ (t acc : Str),
      (joinSp (splitWsAux t acc)).countP p = t.countP p + acc.countP p ∧
      (joinSp (splitWsAux t acc)).length ≤ t.length + acc.length := by
  intro t
  induction t with
  | nil =>
    intro acc
    rw [splitWsAux]
    split_ifs with h
    · subst h
      exact ⟨rfl, by simp [joinSp]⟩
    · constructor
      · show (joinSp [acc.reverse]).countP p = [].countP p + acc.countP p
        simp [joinSp]
      · show (joinSp [acc.reverse]).length ≤ [].length + acc.length
        simp [joinSp]
  | cons c rest ih =>
    intro acc
    rw [splitWsAux]
    by_cases hc : isSpaceCp c = true
    · have hpc : p c = false := hsp c hc
      rw [if_pos hc]
      split_ifs with hacc
      · subst hacc
        obtain ⟨h1, h2⟩ := ih []
        constructor
        · rw [h1, List.countP_cons, hpc]
          simp
        · simp only [List.countP_nil, List.length_nil] at h1 h2 ⊢
          simp only [List.length_cons]
          omega
      · obtain ⟨h1, h2⟩ := ih []
        have hrev : (acc.reverse).countP p = acc.countP p := by simp
        constructor
        · rw [countP_joinSp_cons (hsp 32 (by decide)), h1, hrev, List.countP_cons, hpc]
          simp [Nat.add_comm]
        · rw [length_joinSp_cons]
          simp only [List.countP_nil, List.length_nil, Nat.add_zero] at h1 h2
          split_ifs <;> simp only [List.length_cons, List.length_reverse] <;> omega
    · rw [if_neg hc]
      obtain ⟨h1, h2⟩ := ih (c :: acc)
      constructor
      · rw [h1, List.countP_cons, List.countP_cons]
        omega
      · simp only [List.length_cons] at h2 ⊢
        omega

theorem collapse_count_len {p : Nat → Bool}
    (hsp : ∀ c, isSpaceCp c = true → p c = false) (t : Str) :
    (joinSp (splitWs t)).countP p = t.countP p ∧
    (joinSp (splitWs t)).length ≤ t.length := by
  have := splitWsAux_count_len hsp t []
  simpa [splitWs] using this

/-- The map `titleGo` preserves length and any class respected by the case maps,
provided no character expands under title-casing. -/
theorem titleGo_count_len {p : Nat → Bool}
    (hp_tc : ∀ c d, d ∈ titleMapCp c → p d = p c)
    (hp_lc : ∀ c, p (lowerCp c) = p c) :
    ∀ (u : Str) (b : Bool), (∀ c ∈ u, (titleMapCp c).length = 1) →
      (titleGo u b).countP p = u.countP p ∧ (titleGo u b).length = u.length := by
  intro u
  induction u with
  | nil => intro b _; exact ⟨rfl, rfl⟩
  | cons c rest ih =>
    intro b h1
    have hrest := ih (isCasedCp c) (fun d hd => h1 d (List.mem_cons_of_mem c hd))
    have hc1 : (titleMapCp c).length = 1 := h1 c (List.mem_cons_self _ _)
    obtain ⟨d, hd⟩ := List.length_eq_one.mp hc1
    show ((if b then [lowerCp c] else titleMapCp c) ++ titleGo rest (isCasedCp c)).countP p
        = (c :: rest).countP p ∧
        ((if b then [lowerCp c] else titleMapCp c) ++ titleGo rest (isCasedCp c)).length
        = (c :: rest).length
    cases b with
    | true =>
      rw [if_pos rfl]
      constructor
      · simp only [List.countP_append, List.countP_cons, List.countP_nil, hp_lc, hrest.1]
        omega
      · simp only [List.length_append, List.length_cons, List.length_nil, hrest.2]
        omega
    | false =>
      rw [if_neg (by decide)]
      have hpd : p d = p c := hp_tc c d (hd ▸ List.mem_cons_self _ _)
      constructor
      · simp only [hd, List.countP_append, List.countP_cons, List.countP_nil, hpd, hrest.1]
        omega
      · simp only [hd, List.length_append, List.length_cons, List.length_nil, hrest.2]
        omega

/-- Per-word length/count equality lifts through `joinSp`. -/
theorem joinSp_congr_count_len {p : Nat → Bool} :
    ∀ (ws ws' : List Str), ws.length = ws'.length →
    (∀ i : Nat, ∀ hi : i < ws.length, ∀ hi' : i < ws'.length,
      (ws'.get ⟨i, hi'⟩).countP p = (ws.get ⟨i, hi⟩).countP p ∧
      (ws'.get ⟨i, hi'⟩).length = (ws.get ⟨i, hi⟩).length) →
    (joinSp ws').countP p = (joinSp ws).countP p ∧
    (joinSp ws').length = (joinSp ws).length := by
  intro ws
  induction ws with
  | nil =>
    intro ws' hlen _
    have : ws' = [] := List.length_eq_zero.mp hlen.symm
    subst this
    exact ⟨rfl, rfl⟩
  | cons u ws ih =>
    intro ws' hlen hget
    cases ws' with
    | nil => cases hlen
    | cons u' ws'' =>
      simp only [List.length_cons, Nat.succ.injEq] at hlen
      have h0 := hget 0 (by simp) (by simp)
      simp only [List.get] at h0
      have htail := ih ws'' hlen (fun i hi hi' => by
        have := hget (i + 1) (by simpa using Nat.succ_lt_succ hi)
          (by simpa using Nat.succ_lt_succ hi')
        simpa [List.get] using this)
      by_cases hws : ws = []
      · have hws2 : ws'' = [] := List.length_eq_zero.mp (by rw [← hlen, hws]; rfl)
        subst hws
        subst hws2
        rw [joinSp_cons, joinSp_cons]
        constructor
        · simp [h0.1]
        · simp [h0.2]
      · have hws2 : ws'' ≠ [] := fun hE =>
          hws (List.length_eq_zero.mp (by rw [hlen, hE]; rfl))
        rw [joinSp_cons, joinSp_cons, if_neg hws2, if_neg hws]
        constructor
        · rw [List.countP_append, List.countP_append, List.countP_cons,
            List.countP_cons, h0.1, htail.1]
        · simp only [List.length_append, List.length_cons, h0.2, htail.2]

/-- Any string whose lowercased, stripped form is at least half digits is
noise (via the mostly-digits branch — or any earlier branch). -/
theorem is_noise_of_digits {text : Str}
    (h : (pyStrip text).length / 2
      ≤ (lowerStr (pyStrip text)).countP (fun c => isDigitCp c)) :
    is_noise_phrase text = true := by
  unfold is_noise_phrase
  simp only
  split_ifs with h1 h2 h3 h4 h5 <;> first | rfl | (exact absurd h h5)

theorem strip_of_nfkc_fixed {x : Str} (hnf : ∀ c ∈ x, nfkcCp c = [c]) :
    strip_emoji_and_symbols x = x.filter allowedCp := by
  unfold strip_emoji_and_symbols
  rw [nfkcStr_eq_self hnf]

/-- Part (a) of the noise-rejection claim, for non-expanding strings: at
least half digits forces rejection. -/
theorem normalize_digit_noise {x : Str}
    (hnf : ∀ c ∈ x, nfkcCp c = [c]) (htc : ∀ c ∈ x, (titleMapCp c).length = 1)
    (hd : x.length ≤ 2 * x.countP (fun c => isDigitCp c)) :
    normalize_brand_name x = [] := by
  have hs1x := strip_of_nfkc_fixed hnf
  have hwmem : ∀ u ∈ splitWs (strip_emoji_and_symbols x), ∀ c ∈ u,
      (titleMapCp c).length = 1 := by
    intro u hu c hc
    have hcx : c ∈ strip_emoji_and_symbols x := mem_splitWs hu hc
    rw [hs1x] at hcx
    exact htc c (List.mem_of_mem_filter hcx)
  have hjoin := joinSp_congr_count_len (p := fun c => isDigitCp c)
    (splitWs (strip_emoji_and_symbols x))
    ((splitWs (strip_emoji_and_symbols x)).map (fun u => titleGo u false))
    (by simp)
    (by
      intro i hi hi'
      have hg : ((splitWs (strip_emoji_and_symbols x)).map (fun u => titleGo u false)).get
          ⟨i, hi'⟩ = titleGo ((splitWs (strip_emoji_and_symbols x)).get ⟨i, hi⟩) false := by
        simp [List.get_map]
      rw [hg]
      exact titleGo_count_len (fun c d hd => digit_titleMap hd) digit_lower _ false
        (hwmem _ (List.get_mem _ _ _)))
  have hcollapse := collapse_count_len (p := fun c => isDigitCp c)
    (fun c hc => space_not_digit hc) (strip_emoji_and_symbols x)
  have hfiltc : (strip_emoji_and_symbols x).countP (fun c => isDigitCp c)
      = x.countP (fun c => isDigitCp c) := by
    rw [hs1x]
    exact countP_digit_filter x
  have hfiltl : (strip_emoji_and_symbols x).length ≤ x.length := by
    rw [hs1x]
    exact List.length_filter_le _ _
  have hstripS : pyStrip (joinSp ((splitWs (strip_emoji_and_symbols x)).map
      (fun u => titleGo u false)))
      = joinSp ((splitWs (strip_emoji_and_symbols x)).map (fun u => titleGo u false)) := by
    rw [← normalize_caps_strip]
    exact normalize_strip_join x
  rw [normalize_eq_joined]
  split_ifs with h1 h2
  · rfl
  · rfl
  exfalso
  apply h2
  apply is_noise_of_digits
  rw [hstripS, countP_lowerStr_digit, hjoin.1, hjoin.2, hcollapse.1, hfiltc]
  have := hcollapse.2
  omega

theorem letter_nonspace {c : Nat} (h : isLetterCp c = true) : isSpaceCp c = false := by
  unfold isLetterCp isAsciiUpperCp isAsciiLowerCp isLatinExtLetterCp at h
  unfold isSpaceCp
  simp only [Bool.or_eq_true, Bool.and_eq_true, decide_eq_true_eq] at h
  refine Bool.eq_false_iff.mpr ?_
  simp only [ne_eq, Bool.or_eq_true, beq_iff_eq]
  omega

theorem letter_allowed {c : Nat} (h : isLetterCp c = true) : allowedCp c = true := by
  unfold allowedCp isWordCp
  rw [h]
  rfl

theorem letter_group {c : Nat} (h : isLetterCp c = true) : isGroupLetterCp c = true := by
  unfold isLetterCp isAsciiUpperCp isAsciiLowerCp isLatinExtLetterCp at h
  unfold isGroupLetterCp isAsciiUpperCp isAsciiLowerCp
  simp only [Bool.or_eq_true, Bool.and_eq_true, decide_eq_true_eq] at h ⊢
  omega

theorem takeWhile_middle {p : Nat → Bool} (l1 l2 : Str) (c : Nat)
    (h1 : ∀ d ∈ l1, p d = true) (hc : p c = false) :
    (l1 ++ c :: l2).takeWhile p = l1 ∧ (l1 ++ c :: l2).dropWhile p = c :: l2 := by
  induction l1 with
  | nil =>
    constructor
    · show (c :: l2).takeWhile p = []
      rw [List.takeWhile_cons_of_neg (by simp [hc])]
    · show (c :: l2).dropWhile p = c :: l2
      rw [List.dropWhile_cons_of_neg (by simp [hc])]
  | cons a l1 ih =>
    have ha : p a = true := h1 a (List.mem_cons_self _ _)
    obtain ⟨iht, ihd⟩ := ih (fun d hd => h1 d (List.mem_cons_of_mem a hd))
    constructor
    · show ((a :: (l1 ++ c :: l2)).takeWhile p) = a :: l1
      rw [List.takeWhile_cons_of_pos (by simp [ha]), iht]
    · show ((a :: (l1 ++ c :: l2)).dropWhile p) = c :: l2
      rw [List.dropWhile_cons_of_pos (by simp [ha]), ihd]

/-- A hyphen-joined pair of 1–3-character groups of class characters matches
`LETTER_GROUP_PATTERN`. -/
theorem letterGroupMatch_of {g1 g2 : Str} (h1l : 1 ≤ g1.length)
    (h13 : g1.length ≤ 3) (h2l : 1 ≤ g2.length) (h23 : g2.length ≤ 3)
    (hall1 : ∀ c ∈ g1, isGroupLetterCp c = true)
    (hall2 : ∀ c ∈ g2, isGroupLetterCp c = true) :
    letterGroupMatch (g1 ++ 45 :: g2) = true := by
  obtain ⟨ht, hdw⟩ := takeWhile_middle (p := fun c => isGroupLetterCp c) g1 g2
    45 hall1 (by decide)
  unfold letterGroupMatch
  rw [hdw, ht]
  simp only [Bool.and_eq_true, decide_eq_true_eq, List.all_eq_true]
  exact ⟨⟨⟨⟨h1l, h13⟩, h2l⟩, h23⟩, hall2⟩

/-- Any string whose stripped form matches the letter-group pattern is
noise. -/
theorem is_noise_of_letterGroup {text : Str}
    (hlen : 2 ≤ (pyStrip text).length)
    (h : letterGroupMatch (pyStrip text) = true) :
    is_noise_phrase text = true := by
  unfold is_noise_phrase
  simp only
  split_ifs with h1 h2 h3 h4 h5 <;> first | rfl | (exact absurd h h4) | omega

theorem splitWs_all_nonspace {t : Str} (hne : t ≠ [])
    (h : ∀ c ∈ t, isSpaceCp c = false) : splitWs t = [t] := by
  have haux := splitWsAux_consume_word h [] []
  rw [List.append_nil] at haux
  unfold splitWs
  rw [haux, splitWsAux, List.append_nil, if_neg (by simpa using hne),
    List.reverse_reverse]

/-- Part (b) of the noise-rejection claim, for non-expanding strings: a
2–3-letter group, hyphen, 2–3-letter group string is rejected. -/
theorem normalize_letter_group_noise {g1 g2 : Str}
    (hnf : ∀ c ∈ g1 ++ 45 :: g2, nfkcCp c = [c])
    (htc : ∀ c ∈ g1 ++ 45 :: g2, (titleMapCp c).length = 1)
    (h1l : 2 ≤ g1.length) (h13 : g1.length ≤ 3)
    (h2l : 2 ≤ g2.length) (h23 : g2.length ≤ 3)
    (hlet1 : ∀ c ∈ g1, isLetterCp c = true) (hlet2 : ∀ c ∈ g2, isLetterCp c = true) :
    normalize_brand_name (g1 ++ 45 :: g2) = [] := by
  have hletx : ∀ c ∈ g1 ++ 45 :: g2, isLetterCp c = true ∨ c = 45 := by
    intro c hc
    rcases List.mem_append.mp hc with hc | hc
    · exact Or.inl (hlet1 c hc)
    · rcases List.mem_cons.mp hc with rfl | hc
      · exact Or.inr rfl
      · exact Or.inl (hlet2 c hc)
  have hnsp : ∀ c ∈ g1 ++ 45 :: g2, isSpaceCp c = false := by
    intro c hc
    rcases hletx c hc with h | rfl
    · exact letter_nonspace h
    · decide
  have hstrip : strip_emoji_and_symbols (g1 ++ 45 :: g2) = g1 ++ 45 :: g2 := by
    refine strip_eq_self ?_
    intro c hc
    refine ⟨?_, hnf c hc⟩
    rcases hletx c hc with h | rfl
    · exact letter_allowed h
    · decide
  have hne : g1 ++ 45 :: g2 ≠ [] := by simp
  have hsplit : splitWs (strip_emoji_and_symbols (g1 ++ 45 :: g2))
      = [g1 ++ 45 :: g2] := by
    rw [hstrip]
    exact splitWs_all_nonspace hne hnsp
  -- the title-cased string and its structure
  have htitle : titleGo (g1 ++ 45 :: g2) false
      = titleGo g1 false ++ 45 :: titleGo g2 false := by
    rw [titleGo_append]
    congr 1
    show (if flagAfter g1 false then [lowerCp 45] else titleMapCp 45) ++
        titleGo g2 (isCasedCp 45) = 45 :: titleGo g2 false
    have h45 : (if flagAfter g1 false then [lowerCp 45] else titleMapCp 45) = [45] := by
      cases flagAfter g1 false <;> rfl
    rw [h45]
    rfl
  have hlen1 := (titleGo_count_len (p := fun c => isDigitCp c)
    (fun c d hd => digit_titleMap hd) digit_lower g1 false
    (fun c hc => htc c (List.mem_append.mpr (Or.inl hc)))).2
  have hlen2 := (titleGo_count_len (p := fun c => isDigitCp c)
    (fun c d hd => digit_titleMap hd) digit_lower g2 false
    (fun c hc => htc c (List.mem_append.mpr (Or.inr (List.mem_cons_of_mem _ hc))))).2
  have hglet1 : ∀ c ∈ titleGo g1 false, isGroupLetterCp c = true := by
    intro c hc
    obtain ⟨d, hd, hcd⟩ := mem_titleGo hc
    refine letter_group ?_
    rcases hcd with hcd | rfl
    · rw [show isLetterCp c = isCasedCp c from rfl, cased_titleMap hcd]
      exact hlet1 d hd
    · rw [show isLetterCp (lowerCp d) = isCasedCp (lowerCp d) from rfl, cased_lower]
      exact hlet1 d hd
  have hglet2 : ∀ c ∈ titleGo g2 false, isGroupLetterCp c = true := by
    intro c hc
    obtain ⟨d, hd, hcd⟩ := mem_titleGo hc
    refine letter_group ?_
    rcases hcd with hcd | rfl
    · rw [show isLetterCp c = isCasedCp c from rfl, cased_titleMap hcd]
      exact hlet2 d hd
    · rw [show isLetterCp (lowerCp d) = isCasedCp (lowerCp d) from rfl, cased_lower]
      exact hlet2 d hd
  have hS : joinSp ((splitWs (strip_emoji_and_symbols (g1 ++ 45 :: g2))).map
      (fun u => titleGo u false)) = titleGo g1 false ++ 45 :: titleGo g2 false := by
    rw [hsplit]
    show joinSp [titleGo (g1 ++ 45 :: g2) false] = _
    rw [show joinSp [titleGo (g1 ++ 45 :: g2) false] = titleGo (g1 ++ 45 :: g2) false
      from rfl, htitle]
  have hmatch : letterGroupMatch (titleGo g1 false ++ 45 :: titleGo g2 false) = true :=
    letterGroupMatch_of (by omega) (by omega) (by omega) (by omega) hglet1 hglet2
  have hstripS : pyStrip (joinSp ((splitWs (strip_emoji_and_symbols (g1 ++ 45 :: g2))).map
      (fun u => titleGo u false)))
      = joinSp ((splitWs (strip_emoji_and_symbols (g1 ++ 45 :: g2))).map
        (fun u => titleGo u false)) := by
    rw [← normalize_caps_strip]
    exact normalize_strip_join _
  rw [normalize_eq_joined]
  split_ifs with h1 h2
  · rfl
  · rfl
  exfalso
  apply h2
  refine is_noise_of_letterGroup ?_ ?_
  · rw [hstripS, hS]
    simp only [List.length_append, List.length_cons]
    omega
  · rw [hstripS, hS]
    exact hmatch

/-- C8 counterexample: the claim fails as stated. In the raw string "12™™"
exactly half the characters are digits, yet `normalize_brand_name` returns
"12Tmtm" (non-empty): NFKC first expands each ™ to "TM", so the
mostly-digits test — which the code applies to the cleaned, title-cased
string, not the raw input — sees 2 digits among 6 characters. -/
theorem C8_digit_noise_counterexample :
    (cps "12™™").length ≤ 2 * (cps "12™™").countP (fun c => isDigitCp c) ∧
    normalize_brand_name (cps "12™™") = cps "12Tmtm" ∧
    normalize_brand_name (cps "12™™") ≠ [] := by decide

/-- C8 (amended): for strings none of whose characters expand under NFKC or
title-casing, the claim holds: (a) a string at least half of whose
characters are digits normalizes to empty; (b) a string of the form
2–3 letters, hyphen, 2–3 letters normalizes to empty. -/
theorem C8_noise_rejection_nonexpanding (x : Str)
    (hnf : ∀ c ∈ x, nfkcCp c = [c])
    (htc : ∀ c ∈ x, (titleMapCp c).length = 1) :
    (x.length ≤ 2 * x.countP (fun c => isDigitCp c) → normalize_brand_name x = []) ∧
    (∀ g1 g2 : Str, x = g1 ++ 45 :: g2 →
      2 ≤ g1.length → g1.length ≤ 3 → 2 ≤ g2.length → g2.length ≤ 3 →
      (∀ c ∈ g1, isLetterCp c = true) → (∀ c ∈ g2, isLetterCp c = true) →
      normalize_brand_name x = []) := by
  constructor
  · intro hd
    exact normalize_digit_noise hnf htc hd
  · intro g1 g2 hx h1l h13 h2l h23 hlet1 hlet2
    subst hx
    exact normalize_letter_group_noise hnf htc h1l h13 h2l h23 hlet1 hlet2

/-- Witness for the amended C8 at concrete inputs: "1234a" is
digit-dominated and rejected; "ab-cd" matches the letter-group shape and is
rejected. -/
theorem C8_noise_rejection_nonexpanding_witness :
    normalize_brand_name (cps "1234a") = [] ∧
    normalize_brand_name (cps "ab-cd") = [] :=
  ⟨(C8_noise_rejection_nonexpanding (cps "1234a") (by decide) (by decide)).1 (by decide),
   (C8_noise_rejection_nonexpanding (cps "ab-cd") (by decide) (by decide)).2
     (cps "ab") (cps "cd") (by decide) (by decide) (by decide) (by decide) (by decide)
     (by decide) (by decide)⟩

/-! ## Retry-loop traces -/

/-- Under an always-failing fetch, the retry loop runs all its iterations,
waiting `_retry_delay_seconds` before every attempt but the first. -/
theorem scrapeOneAux_all_fail (fetch : Nat → AttemptResult) (jit : Nat → ℚ)
    (base cap : ℚ)
    (hfail : ∀ a recs bl err, fetch a = Except.ok (recs, bl, err) →
      errTruthy err = true ∧ recs = []) :
    ∀ (rem attempt : Nat), 1 ≤ attempt → ∀ lastErr,
      (scrapeOneAux fetch jit base cap attempt rem lastErr).attempts = rem ∧
      (scrapeOneAux fetch jit base cap attempt rem lastErr).delays
        = (List.range rem).map
          (fun i => _retry_delay_seconds base cap (attempt + i) (jit (attempt + i))) := by
  intro rem
  induction rem with
  | zero => intro attempt _ lastErr; exact ⟨rfl, rfl⟩
  | succ rem ih =>
    intro attempt hatt lastErr
    have hds : (if 0 < attempt then
        [_retry_delay_seconds base cap attempt (jit attempt)] else [])
        = [_retry_delay_seconds base cap attempt (jit attempt)] := if_pos (by omega)
    have hrange : (List.range (rem + 1)).map
          (fun i => _retry_delay_seconds base cap (attempt + i) (jit (attempt + i)))
        = _retry_delay_seconds base cap attempt (jit attempt) ::
          (List.range rem).map
            (fun i => _retry_delay_seconds base cap (attempt + 1 + i)
              (jit (attempt + 1 + i))) := by
      rw [List.range_succ_eq_map, List.map_cons, List.map_map]
      refine congrArg₂ _ (by simp) ?_
      refine List.map_congr_left ?_
      intro i _
      have harith : attempt + Nat.succ i = attempt + 1 + i := by omega
      simp [Function.comp, harith]
    rw [scrapeOneAux]
    split
    next e hfa =>
      obtain ⟨iha, ihd⟩ := ih (attempt + 1) (by omega) (some e)
      constructor
      · show (scrapeOneAux fetch jit base cap (attempt + 1) rem (some e)).attempts + 1
          = rem + 1
        omega
      · show (if 0 < attempt then
            [_retry_delay_seconds base cap attempt (jit attempt)] else []) ++
            (scrapeOneAux fetch jit base cap (attempt + 1) rem (some e)).delays = _
        rw [hds, ihd, hrange]
        rfl
    next recs bl err hfa =>
      obtain ⟨he, hr⟩ := hfail attempt recs bl err hfa
      rw [if_pos (by simp [he, hr])]
      obtain ⟨iha, ihd⟩ := ih (attempt + 1) (by omega) err
      constructor
      · show (scrapeOneAux fetch jit base cap (attempt + 1) rem err).attempts + 1
          = rem + 1
        omega
      · show (if 0 < attempt then
            [_retry_delay_seconds base cap attempt (jit attempt)] else []) ++
            (scrapeOneAux fetch jit base cap (attempt + 1) rem err).delays = _
        rw [hds, ihd, hrange]
        rfl

/-- Top-level trace of the retry loop under an always-failing fetch:
`r + 1` attempts, with a delay before every attempt but the first. -/
theorem scrapeOne_trace_all_fail (fetch : Nat → AttemptResult) (jit : Nat → ℚ)
    (base cap : ℚ) (r : Nat)
    (hfail : ∀ a recs bl err, fetch a = Except.ok (recs, bl, err) →
      errTruthy err = true ∧ recs = []) :
    (scrapeOneAux fetch jit base cap 0 (r + 1) none).attempts = r + 1 ∧
    (scrapeOneAux fetch jit base cap 0 (r + 1) none).delays
      = (List.range r).map
        (fun i => _retry_delay_seconds base cap (1 + i) (jit (1 + i))) := by
  have hds : (if 0 < (0 : Nat) then
      [_retry_delay_seconds base cap 0 (jit 0)] else []) = [] := if_neg (by omega)
  rw [scrapeOneAux]
  split
  next e hfa =>
    obtain ⟨iha, ihd⟩ := scrapeOneAux_all_fail fetch jit base cap hfail r 1 le_rfl (some e)
    constructor
    · show (scrapeOneAux fetch jit base cap 1 r (some e)).attempts + 1 = r + 1
      omega
    · show (if 0 < (0 : Nat) then
          [_retry_delay_seconds base cap 0 (jit 0)] else []) ++
          (scrapeOneAux fetch jit base cap 1 r (some e)).delays = _
      rw [hds, ihd]
      rfl
  next recs bl err hfa =>
    obtain ⟨he, hr⟩ := hfail 0 recs bl err hfa
    rw [if_pos (by simp [he, hr])]
    obtain ⟨iha, ihd⟩ := scrapeOneAux_all_fail fetch jit base cap hfail r 1 le_rfl err
    constructor
    · show (scrapeOneAux fetch jit base cap 1 r err).attempts + 1 = r + 1
      omega
    · show (if 0 < (0 : Nat) then
          [_retry_delay_seconds base cap 0 (jit 0)] else []) ++
          (scrapeOneAux fetch jit base cap 1 r err).delays = _
      rw [hds, ihd]
      rfl

/-- C4 (amended): a permanently failing task is attempted exactly `r + 1`
times, with the modelled `_retry_delay_seconds` waited between consecutive
attempts; the deterministic back-off component `min cap (base·2^attempt)` is
monotone, and the full jittered delays strictly increase whenever the
exponential term stays below the cap (with `1 < base·2^attempt` and jitters
in `[0, 1]`) — but not, in general, once the cap is reached (see the
counterexample). -/
theorem C4_retry_budget_amended (fetch : Nat → AttemptResult) (jit : Nat → ℚ)
    (base cap : ℚ) (r : Nat)
    (hfail : ∀ a recs bl err, fetch a = Except.ok (recs, bl, err) →
      errTruthy err = true ∧ recs = []) :
    (scrapeOneAux fetch jit base cap 0 (r + 1) none).attempts = r + 1 ∧
    (scrapeOneAux fetch jit base cap 0 (r + 1) none).delays
      = (List.range r).map
        (fun i => _retry_delay_seconds base cap (1 + i) (jit (1 + i))) ∧
    (∀ a b : Nat, a ≤ b → 0 ≤ base →
      min cap (base * 2 ^ a) ≤ min cap (base * 2 ^ b)) ∧
    (∀ a : Nat, 1 < base * 2 ^ a → base * 2 ^ (a + 1) ≤ cap →
      0 ≤ jit (a + 1) → jit a ≤ 1 →
      _retry_delay_seconds base cap a (jit a)
        < _retry_delay_seconds base cap (a + 1) (jit (a + 1))) := by
  have htop := scrapeOne_trace_all_fail fetch jit base cap r hfail
  refine ⟨htop.1, htop.2, ?_, ?_⟩
  · intro a b hab hbase
    refine min_le_min le_rfl ?_
    exact mul_le_mul_of_nonneg_left (pow_le_pow_right (by norm_num) hab) hbase
  · intro a h1 hcap hj1 hj0
    unfold _retry_delay_seconds
    have hpos : (0 : ℚ) < 2 ^ a := by positivity
    have h2 : base * 2 ^ (a + 1) = 2 * (base * 2 ^ a) := by
      rw [pow_succ]
      ring
    have hle : base * 2 ^ a ≤ base * 2 ^ (a + 1) := by
      rw [h2]
      nlinarith
    rw [min_eq_right hcap, min_eq_right (le_trans hle hcap)]
    rw [h2]
    linarith

/-- Witness for the amended C4 at concrete inputs: an always-raising fetch
with retry budget 1 runs exactly 2 attempts, and below the cap (base 1,
cap 30, zero jitter) consecutive delays strictly increase. -/
theorem C4_retry_budget_amended_witness :
    (scrapeOneAux (fun _ => Except.error (cps "E")) (fun _ => 0) 1 30 0 2 none).attempts
      = 2 ∧
    _retry_delay_seconds 1 30 1 0 < _retry_delay_seconds 1 30 2 0 := by
  have h := C4_retry_budget_amended (fun _ => Except.error (cps "E")) (fun _ => 0) 1 30 1
    (by intro a recs bl err hEq; cases hEq)
  exact ⟨h.1, h.2.2.2 1 (by norm_num) (by norm_num) (by norm_num) (by norm_num)⟩

/-- C4 counterexample: delays are not strictly increasing in general. With
the default base 1 and cap 30, a permanently failing task with retry budget
6 waits delays [2, 4, 8, 16, 30.9, 30] when the attempt-5 jitter is 0.9 and
the attempt-6 jitter is 0: once the exponential term hits the cap, jitter
can make a later delay shorter. -/
theorem C4_delays_not_strictly_increasing :
    (scrapeOneAux (fun _ => Except.error (cps "E"))
      (fun a => if a = 5 then 9 / 10 else 0) 1 30 0 7 none).attempts = 7 ∧
    ¬ List.Chain' (· < ·)
      (scrapeOneAux (fun _ => Except.error (cps "E"))
        (fun a => if a = 5 then 9 / 10 else 0) 1 30 0 7 none).delays := by
  have h := scrapeOne_trace_all_fail (fun _ => Except.error (cps "E"))
    (fun a => if a = 5 then 9 / 10 else 0) 1 30 6
    (by intro a recs bl err hEq; cases hEq)
  refine ⟨h.1, ?_⟩
  rw [h.2]
  intro hchain
  have h56 : _retry_delay_seconds 1 30 (1 + 4) ((fun a => if a = 5 then (9:ℚ) / 10 else 0) (1 + 4))
      < _retry_delay_seconds 1 30 (1 + 5) ((fun a => if a = 5 then (9:ℚ) / 10 else 0) (1 + 5)) := by
    have := List.chain'_iff_get.mp hchain 4 (by simp)
    simpa using this
  unfold _retry_delay_seconds at h56
  norm_num [min_def] at h56

/-- C2 (Scenario D, code bug): two retailers, the first yielding 5 brands,
the second returning HTTP 403 on both of its `maxRetries = 1` attempts. On
`run_pilot`'s parallel path — the default for two tasks — the aggregate
contains exactly the 5 records of the first retailer and the second
retailer's site-result log line carries the non-empty error "HTTP 403",
but `blocked_or_captcha = false`: `_scrape_one_retailer` discards the
blocked flag (binding it to `_blocked`) and the parallel merge calls
`log_site_result` without it, so the default `False` is logged. The
sequential path (last conjunct) preserves the flag and logs
`blocked_or_captcha = true`, as the spec describes. -/
theorem C2_parallel_path_drops_blocked_flag :
    ((runPilotParallelMerge
        [(_scrape_one_retailer
            (fun _ => Except.ok (scrape_brands_from_url
              ⟨NavOutcome.response 200,
                fun _ => [cps "Alpha", cps "Bravo", cps "Delta", cps "Echo", cps "Fargo"],
                fun _ => none, fun _ => NavOutcome.noResponse, 10, false⟩
              (cps "http://a") (cps "r1") (cps "t") none))
            (fun _ => 0) 1 30 (cps "r1") (some (cps "http://a")) 1).1,
         (_scrape_one_retailer
            (fun _ => Except.ok (scrape_brands_from_url
              ⟨NavOutcome.response 403, fun _ => [], fun _ => none,
                fun _ => NavOutcome.noResponse, 10, false⟩
              (cps "http://b") (cps "r2") (cps "t") none))
            (fun _ => 0) 1 30 (cps "r2") (some (cps "http://b")) 1).1]
        none []).1.map (fun rec => rec.brand)
      = [cps "Alpha", cps "Bravo", cps "Delta", cps "Echo", cps "Fargo"]) ∧
    ((runPilotParallelMerge
        [(_scrape_one_retailer
            (fun _ => Except.ok (scrape_brands_from_url
              ⟨NavOutcome.response 200,
                fun _ => [cps "Alpha", cps "Bravo", cps "Delta", cps "Echo", cps "Fargo"],
                fun _ => none, fun _ => NavOutcome.noResponse, 10, false⟩
              (cps "http://a") (cps "r1") (cps "t") none))
            (fun _ => 0) 1 30 (cps "r1") (some (cps "http://a")) 1).1,
         (_scrape_one_retailer
            (fun _ => Except.ok (scrape_brands_from_url
              ⟨NavOutcome.response 403, fun _ => [], fun _ => none,
                fun _ => NavOutcome.noResponse, 10, false⟩
              (cps "http://b") (cps "r2") (cps "t") none))
            (fun _ => 0) 1 30 (cps "r2") (some (cps "http://b")) 1).1]
        none []).2
      = [{ source := cps "r1", success := true, brands_count := 5, error := none,
           blocked_or_captcha := false },
         { source := cps "r2", success := false, brands_count := 0,
           error := some (cps "HTTP 403"), blocked_or_captcha := false }]) ∧
    cps "HTTP 403" ≠ [] ∧
    ((runPilotSeq 1 none none
        [{ source := cps "r1", url := some (cps "http://a"),
           fetch := fun _ _ => Except.ok (scrape_brands_from_url
              ⟨NavOutcome.response 200,
                fun _ => [cps "Alpha", cps "Bravo", cps "Delta", cps "Echo", cps "Fargo"],
                fun _ => none, fun _ => NavOutcome.noResponse, 10, false⟩
              (cps "http://a") (cps "r1") (cps "t") none) },
         { source := cps "r2", url := some (cps "http://b"),
           fetch := fun _ _ => Except.ok (scrape_brands_from_url
              ⟨NavOutcome.response 403, fun _ => [], fun _ => none,
                fun _ => NavOutcome.noResponse, 10, false⟩
              (cps "http://b") (cps "r2") (cps "t") none) }] []).2
      = [{ source := cps "r1", success := true, brands_count := 5, error := none,
           blocked_or_captcha := false },
         { source := cps "r2", success := false, brands_count := 0,
           error := some (cps "HTTP 403"), blocked_or_captcha := true }]) := by
  refine ⟨by decide, by decide, by decide, by decide⟩

/-! ## Concrete evaluations of the model (spec scenarios A and C, and basic
sanity checks) -/

example : cps "Nike" = [78, 105, 107, 101] := by decide

example : normalize_brand_name (cps "  Nike  ") = cps "Nike" := by decide

example : normalize_brand_name (cps "C-G") = [] := by decide

example : normalize_brand_name (cps "zzz") = cps "Zzz" := by decide

example : dedupe_brand_names [cps "NIKE", cps "nike", cps "Adidas"]
    = [cps "Nike", cps "Adidas"] := by decide

example : _strip_trailing_ui_counter (cps "Only Maternity104") = cps "Only Maternity" := by
  decide

example : _strip_trailing_ui_counter (cps "OVS2") = cps "OVS" := by decide

example : _strip_trailing_ui_counter (cps "1017 Alyx 9SM") = cps "1017 Alyx 9SM" := by decide

example : _slug_from_href (cps "/brands/acme-co") = some (cps "acme co") := by decide

example : normalize_brand_name (cps "acme co") = cps "Acme Co" := by decide

end Scraper
